import Mathlib

/-!
Shallow embedding of the VRP planning core of this repository: the
capacity-aware route-cost evaluators, the greedy cheapest-append planner
(src/algorithms/basic.py) and the Monte Carlo grouping planner
(src/algorithms/grouping_monte_carlo.py).

Python floats are modelled as rationals.  The float infinity used by
basic.py is the top element of WithTop ℚ, while grouping_monte_carlo.py
itself uses the finite sentinel INF = 10^18, kept here as an exact
rational.  The shortest-path oracle astar_shortest_path is defined in a
module outside src/ (algorithms/a_star.py), so the planners are
parametrised over it as a function returning the optional travel time
(none meaning that no path exists, matching the path-is-None signal).
The stdlib random.Random handle is modelled as an abstract stream of
draws together with an abstract shuffle that is known to permute its
input list.
-/

abbrev NodeId := ℕ

abbrev Vid := ℕ

/-- domain.models.DeliveryRequest: identifier, destination node and cargo
demand (the Python source reads the demand with getattr(req, "demand", 1),
defaulting to 1; the default is applied at construction here). -/
structure DeliveryRequest where
  id : ℕ
  node : NodeId
  demand : ℤ := 1
deriving DecidableEq, Repr, Inhabited

/-- domain.models.Vehicle: identifier, starting node and capacity. -/
structure Vehicle where
  id : Vid
  start_node : NodeId
  capacity : ℤ
deriving DecidableEq, Repr, Inhabited

/-- The shortest-path oracle astar_shortest_path (module algorithms.a_star,
outside src/), abstracted to the quantity the planners consume: the travel
time of the returned pair, or none when the returned path is None. -/
abbrev Oracle := NodeId → NodeId → Option ℚ

/-- First-match association-list lookup, the semantics of a Python dict
access for dicts whose keys are inserted at most once. -/
def alookup {κ β : Type} [DecidableEq κ] : List (κ × β) → κ → Option β
  | [], _ => none
  | e :: rest, k => if e.1 = k then some e.2 else alookup rest k

/-- Per-vehicle routes under construction: the routes dict of basic.py
(vehicle id to list of stops), as an association list in insertion order. -/
abbrev Routes := List (Vid × List DeliveryRequest)

/-- routes[vid].stops (empty when the key is absent; the planners only
look up keys they inserted). -/
def getStops (st : Routes) (vid : Vid) : List DeliveryRequest :=
  (alookup st vid).getD []

/-- In-place replacement of the stop list of the first entry keyed vid,
the pure counterpart of mutating the dict entry's list. -/
def setStops : Routes → Vid → List DeliveryRequest → Routes
  | [], _, _ => []
  | e :: rest, vid, stops =>
      if e.1 = vid then (e.1, stops) :: rest else e :: setStops rest vid stops

/-- routes[vid].stops.append(req). -/
def appendStop (st : Routes) (vid : Vid) (req : DeliveryRequest) : Routes :=
  setStops st vid (getStops st vid ++ [req])

/-- Multiset of all requests appearing across all routes of a plan. -/
def stateMs (st : Routes) : Multiset DeliveryRequest :=
  (st.map fun e => (e.2 : Multiset DeliveryRequest)).sum

/-- domain.models.Plan: depot plus the vehicle-id-to-route mapping. -/
structure Plan where
  depot : NodeId
  routes : Routes
deriving DecidableEq, Repr

/-- basic.PlanCost. -/
structure PlanCost where
  plan : Plan
  total_time : WithTop ℚ
deriving DecidableEq, Repr

/-- The two RuntimeError exits of GreedyVRPPlanner.build_plan, plus the
fuel marker of the loop embedding (proved unreachable for the fuel the
planner passes). -/
inductive PlanError where
  | infeasible (id : ℕ) (demand : ℤ)
  | internalInvariant
  | fuelExhausted
deriving DecidableEq, Repr

instance {ε α : Type} [DecidableEq ε] [DecidableEq α] : DecidableEq (Except ε α) := by
  intro x y
  match x, y with
  | .ok a, .ok b =>
      exact if h : a = b then isTrue (by rw [h]) else
        isFalse (fun hh => h (by injection hh))
  | .error a, .error b =>
      exact if h : a = b then isTrue (by rw [h]) else
        isFalse (fun hh => h (by injection hh))
  | .ok a, .error b => exact isFalse (fun hh => Except.noConfusion hh)
  | .error a, .ok b => exact isFalse (fun hh => Except.noConfusion hh)

namespace GreedyVRPPlanner

/-- The stop-walking loop of GreedyVRPPlanner._route_cost: one step per
stop, tracking the current node and the remaining capacity, plus the
final optional depot return in the base case.  Early float("inf") returns
of the source are absorbed by the top element of WithTop. -/
def routeCostLoop (oracle : Oracle) (depot : NodeId) (cap : ℤ) (ret : Bool) :
    List DeliveryRequest → NodeId → ℤ → WithTop ℚ
  | [], cur, _ =>
      if ret = true ∧ ¬cur = depot then
        match oracle cur depot with
        | none => ⊤
        | some travel => (travel : WithTop ℚ)
      else 0
  | req :: rest, cur, capLeft =>
      if req.demand ≤ 0 then ⊤
      else
        let back : Option ℚ :=
          if capLeft < req.demand ∧ ¬cur = depot then oracle cur depot else some 0
        let cur1 : NodeId := if capLeft < req.demand then depot else cur
        let capLeft1 : ℤ := if capLeft < req.demand then cap else capLeft
        match back with
        | none => ⊤
        | some d =>
            match oracle cur1 req.node with
            | none => ⊤
            | some travel =>
                (d : WithTop ℚ) + (travel : WithTop ℚ) +
                  routeCostLoop oracle depot cap ret rest req.node (capLeft1 - req.demand)

/-- GreedyVRPPlanner._route_cost. -/
def route_cost (oracle : Oracle) (vehicle : Vehicle) (stops : List DeliveryRequest)
    (depot : NodeId) (ret : Bool) : WithTop ℚ :=
  if vehicle.capacity ≤ 0 then ⊤
  else routeCostLoop oracle depot vehicle.capacity ret stops vehicle.start_node vehicle.capacity

/-- The candidate scan of one assignment step of build_plan: for every
remaining request (outer) and every vehicle (inner), skip vehicles whose
capacity is below the demand, cost the tentative append, and keep the
strictly cheapest pair, first-encountered pair winning ties. -/
def bestChoice (oracle : Oracle) (depot : NodeId) (routes : Routes)
    (vehicles : List Vehicle) (remaining : List DeliveryRequest) :
    Option (Vid × DeliveryRequest × WithTop ℚ) :=
  remaining.foldl (fun acc req =>
    vehicles.foldl (fun acc2 v =>
      if v.capacity < req.demand then acc2
      else
        let cost := route_cost oracle v (getStops routes v.id ++ [req]) depot true
        match acc2 with
        | none => some (v.id, req, cost)
        | some best => if cost < best.2.2 then some (v.id, req, cost) else acc2) acc) none

/-- Soundness of any produced candidate: the scan only outputs requests it
took from the remaining pool and vehicle ids of fleet members. -/
def choiceOK (vehicles : List Vehicle) (remaining : List DeliveryRequest) :
    Option (Vid × DeliveryRequest × WithTop ℚ) → Prop
  | none => True
  | some t => t.2.1 ∈ remaining ∧ ∃ v ∈ vehicles, v.id = t.1

/-- The while-remaining loop of build_plan, with a fuel argument (one unit
per assignment step; build_plan passes the request count, which is exact
because every step removes one request). -/
def greedyLoop (oracle : Oracle) (depot : NodeId) (vehicles : List Vehicle) :
    ℕ → List DeliveryRequest → Routes → Except PlanError Routes
  | _, [], routes => .ok routes
  | 0, _ :: _, _ => .error .fuelExhausted
  | fuel + 1, req0 :: rest, routes =>
      match bestChoice oracle depot routes vehicles (req0 :: rest) with
      | none => .error .internalInvariant
      | some best =>
          greedyLoop oracle depot vehicles fuel ((req0 :: rest).erase best.2.1)
            (appendStop routes best.1 best.2.1)

/-- GreedyVRPPlanner.build_plan: upfront feasibility check (first request
that no vehicle can carry raises), the greedy assignment loop, then the
total time as the sum of every vehicle's final route cost. -/
def build_plan (oracle : Oracle) (depot : NodeId) (vehicles : List Vehicle)
    (requests : List DeliveryRequest) : Except PlanError PlanCost :=
  match requests.find? (fun r => vehicles.all fun v => v.capacity < r.demand) with
  | some r => .error (.infeasible r.id r.demand)
  | none =>
      let routes0 : Routes := vehicles.map fun v => (v.id, [])
      match greedyLoop oracle depot vehicles requests.length requests routes0 with
      | .error e => .error e
      | .ok routes =>
          let total : WithTop ℚ := vehicles.foldl
            (fun acc v => acc + route_cost oracle v (getStops routes v.id) depot true) 0
          .ok ⟨⟨depot, routes⟩, total⟩

end GreedyVRPPlanner

/-- grouping_monte_carlo.INF, the finite infeasibility sentinel. -/
def INF : ℚ := 10 ^ 18

/-- grouping_monte_carlo._compute_time: zero on equal endpoints, INF when
the oracle finds no path, the path cost otherwise. -/
def compute_time (oracle : Oracle) (src dst : NodeId) : ℚ :=
  if src = dst then 0
  else
    match oracle src dst with
    | none => INF
    | some cost => cost

/-- Dict insertion for the distance cache.  precompute_distances only ever
writes a key that is absent, except for rewriting the same value at (a, a),
so skipping present keys preserves the dict's lookup semantics. -/
def dinsert (d : List ((NodeId × NodeId) × ℚ)) (k : NodeId × NodeId) (t : ℚ) :
    List ((NodeId × NodeId) × ℚ) :=
  if (alookup d k).isSome then d else d ++ [(k, t)]

/-- grouping_monte_carlo.precompute_distances: pairwise travel times over
the depot and all request nodes, both orientations filled from the first
orientation encountered. -/
def precompute_distances (oracle : Oracle) (depot : NodeId)
    (requests : List DeliveryRequest) : List ((NodeId × NodeId) × ℚ) :=
  let nodes : List NodeId := depot :: requests.map (·.node)
  nodes.foldl (fun d a =>
    nodes.foldl (fun d2 b =>
      if (alookup d2 (a, b)).isSome then d2
      else
        let t := compute_time oracle a b
        dinsert (dinsert d2 (a, b) t) (b, a) t) d) []

/-- The stop-walking loop of grouping_monte_carlo.route_time, carrying the
accumulated total because the source's early INF return discards it. -/
def routeTimeLoop (depot : NodeId) (dist : NodeId → NodeId → ℚ) (cap : ℤ) :
    List DeliveryRequest → NodeId → ℤ → ℚ → ℚ
  | [], cur, _, total => if ¬cur = depot then total + dist cur depot else total
  | r :: rest, cur, capLeft, total =>
      if r.demand ≤ 0 then INF
      else
        let total1 : ℚ :=
          if capLeft < r.demand ∧ ¬cur = depot then total + dist cur depot else total
        let cur1 : NodeId := if capLeft < r.demand then depot else cur
        let capLeft1 : ℤ := if capLeft < r.demand then cap else capLeft
        routeTimeLoop depot dist cap rest r.node (capLeft1 - r.demand)
          (total1 + dist cur1 r.node)

/-- grouping_monte_carlo.route_time.  The distance dict is abstracted to a
total function; the planner passes the lookup function of the precomputed
cache, whose key set covers every pair the evaluator queries. -/
def route_time (depot : NodeId) (stops : List DeliveryRequest)
    (dist : NodeId → NodeId → ℚ) (vehicle_capacity : ℤ) : ℚ :=
  if stops = [] then 0
  else if vehicle_capacity ≤ 0 then INF
  else routeTimeLoop depot dist vehicle_capacity stops depot vehicle_capacity 0

/-- The argmin scan of one nearest-neighbor step: index of the first stop
strictly improving on the running best time, starting from best index 0
and best time INF. -/
def nnPickAux (dist : NodeId → NodeId → ℚ) (cur : NodeId) :
    List DeliveryRequest → ℕ → ℕ → ℚ → ℕ
  | [], _, best_idx, _ => best_idx
  | r :: rest, i, best_idx, best_t =>
      if dist cur r.node < best_t then nnPickAux dist cur rest (i + 1) i (dist cur r.node)
      else nnPickAux dist cur rest (i + 1) best_idx best_t

def nnPick (dist : NodeId → NodeId → ℚ) (cur : NodeId)
    (remaining : List DeliveryRequest) : ℕ :=
  nnPickAux dist cur remaining 0 0 INF

/-- The while-remaining loop of build_tsp_route_nearest_neighbor, with one
unit of fuel per popped stop (the caller passes the stop count, which is
exact). -/
def nnGo (dist : NodeId → NodeId → ℚ) :
    ℕ → NodeId → List DeliveryRequest → List DeliveryRequest
  | 0, _, _ => []
  | _ + 1, _, [] => []
  | fuel + 1, cur, r :: rs =>
      let i := nnPick dist cur (r :: rs)
      let chosen := (r :: rs).getD i default
      chosen :: nnGo dist fuel chosen.node ((r :: rs).eraseIdx i)

/-- grouping_monte_carlo.build_tsp_route_nearest_neighbor. -/
def build_tsp_route_nearest_neighbor (depot : NodeId)
    (requests : List DeliveryRequest) (dist : NodeId → NodeId → ℚ) :
    List DeliveryRequest :=
  nnGo dist requests.length depot requests

/-- The random.Random handle threaded through the grouping planner,
modelled abstractly: a stream of draws consumed one per choice/randrange
call, and a shuffle function known to permute its input (the behaviour of
stdlib random.shuffle). -/
structure Rng where
  draw : ℕ → ℕ
  shuf : List DeliveryRequest → List DeliveryRequest
  shuf_perm : ∀ l, List.Perm (shuf l) l

/-- A concrete random handle: the all-zero draw stream with the identity
shuffle, used to instantiate theorems at concrete inputs. -/
def rngZero : Rng :=
  ⟨fun _ => 0, fun l => l, fun l => List.Perm.refl l⟩

/-- rng.choice(l): uniform member selection, modelled as indexing by the
next draw modulo the length (Python raises on an empty list; callers of
this model establish nonemptiness). -/
def choice {α : Type} [Inhabited α] (rng : Rng) (k : ℕ) (l : List α) : α :=
  l.getD (rng.draw k % l.length) default

/-- The grouping state: vehicle id to the list of requests assigned to it. -/
abbrev MCState := Routes

/-- grouping_monte_carlo.init_state_random: shuffle the requests, then
append each to a uniformly chosen vehicle.  Returns the state and the
advanced draw position. -/
def init_state_random (vehicles : List Vehicle) (requests : List DeliveryRequest)
    (rng : Rng) (k : ℕ) : MCState × ℕ :=
  let state0 : MCState := vehicles.map fun v => (v.id, [])
  (rng.shuf requests).foldl
    (fun sk req => ((appendStop sk.1 (choice rng sk.2 vehicles).id req), sk.2 + 1))
    (state0, k)

/-- The per-vehicle loop of grouping_monte_carlo.evaluate_state, carrying
the running makespan because the early INF return on a non-positive
capacity discards it. -/
def evalLoop (depot : NodeId) (state : MCState) (dist : NodeId → NodeId → ℚ) :
    List Vehicle → ℚ → ℚ
  | [], makespan => makespan
  | v :: vs, makespan =>
      if v.capacity ≤ 0 then INF
      else
        let reqs := getStops state v.id
        if reqs = [] then evalLoop depot state dist vs makespan
        else
          let order := build_tsp_route_nearest_neighbor depot reqs dist
          evalLoop depot state dist vs (max makespan (route_time depot order dist v.capacity))

/-- grouping_monte_carlo.evaluate_state. -/
def evaluate_state (depot : NodeId) (vehicles : List Vehicle) (state : MCState)
    (dist : NodeId → NodeId → ℚ) : ℚ :=
  evalLoop depot state dist vehicles 0

/-- grouping_monte_carlo.random_move (value level): pick a vehicle, pop a
random request of its list if any, and append it to a random different
vehicle, falling back to the origin when no other vehicle exists.  Returns
the new state and the advanced draw position. -/
def random_move (state : MCState) (vehicles : List Vehicle) (rng : Rng) (k : ℕ) :
    MCState × ℕ :=
  let v_ids := vehicles.map (·.id)
  let from_vid := choice rng k v_ids
  let fromList := getStops state from_vid
  if fromList = [] then (state, k + 1)
  else
    let r_idx := rng.draw (k + 1) % fromList.length
    let req := fromList.getD r_idx default
    let popped := fromList.eraseIdx r_idx
    let state1 := setStops state from_vid popped
    let to_candidates := v_ids.filter (fun vid => ¬vid = from_vid)
    if to_candidates = [] then (setStops state1 from_vid (popped ++ [req]), k + 2)
    else (appendStop state1 (choice rng (k + 2) to_candidates) req, k + 3)

/-- The hill-climbing loop of MonteCarloGroupingPlanner.build_plan: one
random move per iteration, acceptance on non-worsening objective, best
state retained on strict improvement.  Returns (current, current cost,
best, best cost). -/
def mcLoop (depot : NodeId) (vehicles : List Vehicle) (dist : NodeId → NodeId → ℚ)
    (rng : Rng) : ℕ → ℕ → MCState → ℚ → MCState → ℚ → MCState × ℚ × MCState × ℚ
  | 0, _, current, currentCost, best, bestCost => (current, currentCost, best, bestCost)
  | n + 1, k, current, currentCost, best, bestCost =>
      let mk := random_move current vehicles rng k
      let candCost := evaluate_state depot vehicles mk.1 dist
      if candCost ≤ currentCost then
        if candCost < bestCost then
          mcLoop depot vehicles dist rng n mk.2 mk.1 candCost mk.1 candCost
        else mcLoop depot vehicles dist rng n mk.2 mk.1 candCost best bestCost
      else mcLoop depot vehicles dist rng n mk.2 current currentCost best bestCost

/-- grouping_monte_carlo.GroupingResult. -/
structure GroupingResult where
  plan : Plan
  makespan_estimate : ℚ
deriving DecidableEq, Repr

/-- Lookup function of the precomputed distance cache (the dict access
dist[(a, b)]; every pair the planner queries is a key of the cache). -/
def mcDist (oracle : Oracle) (depot : NodeId) (requests : List DeliveryRequest) :
    NodeId -> NodeId -> ℚ :=
  fun a b => (alookup (precompute_distances oracle depot requests) (a, b)).getD 0

namespace MonteCarloGroupingPlanner

/-- MonteCarloGroupingPlanner.build_plan: early exit on an empty request
list, otherwise precompute the distance cache, draw a random initial
state, run the hill-climbing loop, and rebuild the plan from the best
state with one final nearest-neighbor ordering per vehicle. -/
def build_plan (oracle : Oracle) (depot : NodeId) (vehicles : List Vehicle)
    (requests : List DeliveryRequest) (rng : Rng) (iterations : ℕ) (k : ℕ) :
    GroupingResult :=
  if requests = [] then ⟨⟨depot, vehicles.map fun v => (v.id, [])⟩, 0⟩
  else
    let dist := mcDist oracle depot requests
    let ik := init_state_random vehicles requests rng k
    let best_cost0 := evaluate_state depot vehicles ik.1 dist
    let res := mcLoop depot vehicles dist rng iterations ik.2 ik.1 best_cost0 ik.1 best_cost0
    let routes : Routes := vehicles.map fun v =>
      (v.id, build_tsp_route_nearest_neighbor depot (getStops res.2.2.1 v.id) dist)
    ⟨⟨depot, routes⟩, res.2.2.2⟩

end MonteCarloGroupingPlanner

/-! Spec-side description of the route-cost evaluator, written from the
claim's words: walk the stops in order maintaining remaining capacity
starting at full; whenever the next stop's demand exceeds remaining
capacity, first route back to the depot (unless already there) and reset
remaining capacity to full; then travel to the stop and decrement
remaining capacity by its demand; the cost is the sum of these leg times
plus the optional final depot return. -/

/-- The travel legs of the spec's capacity-aware walk (final depot return
excluded). -/
def specLegs (depot : NodeId) (cap : ℤ) :
    List DeliveryRequest → NodeId → ℤ → List (NodeId × NodeId)
  | [], _, _ => []
  | req :: rest, cur, capLeft =>
      if capLeft < req.demand then
        (if cur = depot then [] else [(cur, depot)]) ++
          (depot, req.node) :: specLegs depot cap rest req.node (cap - req.demand)
      else (cur, req.node) :: specLegs depot cap rest req.node (capLeft - req.demand)

/-- Node at which the walk ends: the last stop's node, or the start. -/
def walkEnd : NodeId → List DeliveryRequest → NodeId
  | start, [] => start
  | _, r :: rest => walkEnd r.node rest

/-- The optional final depot return of the walk. -/
def finalLeg (depot : NodeId) (ret : Bool) (endNode : NodeId) : List (NodeId × NodeId) :=
  if ret = true ∧ ¬endNode = depot then [(endNode, depot)] else []

/-- All travel legs of the spec's walk, final return included. -/
def specWalkLegs (depot : NodeId) (cap : ℤ) (ret : Bool)
    (stops : List DeliveryRequest) (start : NodeId) : List (NodeId × NodeId) :=
  specLegs depot cap stops start cap ++ finalLeg depot ret (walkEnd start stops)

/-- Oracle time of one leg, unreachable legs costing the top element. -/
def legTime (oracle : Oracle) (p : NodeId × NodeId) : WithTop ℚ :=
  match oracle p.1 p.2 with
  | none => ⊤
  | some t => (t : WithTop ℚ)

/-- Spec-side route cost for the basic evaluator: the sum of the oracle
times of all legs of the walk. -/
def specRouteCost (oracle : Oracle) (vehicle : Vehicle)
    (stops : List DeliveryRequest) (depot : NodeId) (ret : Bool) : WithTop ℚ :=
  ((specWalkLegs depot vehicle.capacity ret stops vehicle.start_node).map
    (legTime oracle)).sum

/-- Spec-side route time for the cache-based evaluator: the sum of the
cached times of all legs of the walk (which starts at the depot and always
returns to it). -/
def specRouteTime (depot : NodeId) (stops : List DeliveryRequest)
    (dist : NodeId → NodeId → ℚ) (cap : ℤ) : ℚ :=
  ((specWalkLegs depot cap true stops depot).map fun p => dist p.1 p.2).sum

/-! Reference-level model of random_move, embedding the Python list
objects it copies and mutates: a store of list cells addressed by
allocation index, states holding references instead of lists.  This makes
the frame property of random_move (the input state's lists are never
written) expressible. -/

/-- Heap of Python list objects, addressed by allocation order. -/
structure Store where
  cells : List (List DeliveryRequest)
deriving DecidableEq, Repr

def Store.read (s : Store) (r : ℕ) : List DeliveryRequest :=
  s.cells.getD r []

def Store.write (s : Store) (r : ℕ) (l : List DeliveryRequest) : Store :=
  ⟨s.cells.set r l⟩

def Store.alloc (s : Store) (l : List DeliveryRequest) : Store × ℕ :=
  (⟨s.cells ++ [l]⟩, s.cells.length)

/-- A grouping state at the reference level: vehicle id to the reference
of its (mutable) request list. -/
abbrev MCStateR := List (Vid × ℕ)

/-- The dict comprehension new_state = {vid: lst[:] for vid, lst in
state.items()}: one fresh cell per entry, holding a copy of the entry's
list. -/
def copyState (store : Store) : MCStateR → Store × MCStateR
  | [] => (store, [])
  | e :: rest =>
      let al := store.alloc (store.read e.2)
      let cs := copyState al.1 rest
      (cs.1, (e.1, al.2) :: cs.2)

/-- grouping_monte_carlo.random_move at the reference level: copy every
per-vehicle list into fresh cells, then pop/append by writing those fresh
cells only.  Returns the new state, the store after the move, and the
advanced draw position. -/
def random_move_ref (state : MCStateR) (store : Store) (vehicles : List Vehicle)
    (rng : Rng) (k : ℕ) : MCStateR × Store × ℕ :=
  let cs := copyState store state
  let store1 := cs.1
  let new_state := cs.2
  let v_ids := vehicles.map (·.id)
  let from_vid := choice rng k v_ids
  let fromRef := (alookup new_state from_vid).getD 0
  let fromList := store1.read fromRef
  if fromList = [] then (new_state, store1, k + 1)
  else
    let r_idx := rng.draw (k + 1) % fromList.length
    let req := fromList.getD r_idx default
    let store2 := store1.write fromRef (fromList.eraseIdx r_idx)
    let to_candidates := v_ids.filter (fun vid => ¬vid = from_vid)
    if to_candidates = [] then
      (new_state, store2.write fromRef (store2.read fromRef ++ [req]), k + 2)
    else
      let toRef := (alookup new_state (choice rng (k + 2) to_candidates)).getD 0
      (new_state, store2.write toRef (store2.read toRef ++ [req]), k + 3)

/-! Helper lemmas about the association-list state operations. -/

theorem keys_setStops (st : Routes) (vid : Vid) (s : List DeliveryRequest) :
    (setStops st vid s).map Prod.fst = st.map Prod.fst := by
  induction st with
  | nil => rfl
  | cons e rest ih =>
      by_cases h : e.1 = vid
      · simp [setStops, h]
      · simp [setStops, h, ih]

theorem keys_appendStop (st : Routes) (vid : Vid) (req : DeliveryRequest) :
    (appendStop st vid req).map Prod.fst = st.map Prod.fst :=
  keys_setStops st vid _

theorem stateMs_cons (e : Vid × List DeliveryRequest) (rest : Routes) :
    stateMs (e :: rest) = (e.2 : Multiset DeliveryRequest) + stateMs rest := by
  simp [stateMs]

theorem mem_keys_tail {κ β : Type} {e : κ × β} {rest : List (κ × β)} {vid : κ}
    (h : vid ∈ (e :: rest).map Prod.fst) (he : ¬e.1 = vid) : vid ∈ rest.map Prod.fst := by
  simp only [List.map_cons, List.mem_cons] at h
  rcases h with h | h
  · exact absurd h.symm he
  · exact h

theorem getStops_setStops_self (st : Routes) (vid : Vid) (s : List DeliveryRequest)
    (h : vid ∈ st.map Prod.fst) : getStops (setStops st vid s) vid = s := by
  induction st with
  | nil => simp at h
  | cons e rest ih =>
      by_cases he : e.1 = vid
      · simp [setStops, he, getStops, alookup]
      · have h1 : setStops (e :: rest) vid s = e :: setStops rest vid s := by
          simp [setStops, he]
        have h3 : getStops (e :: setStops rest vid s) vid = getStops (setStops rest vid s) vid := by
          simp [getStops, alookup, he]
        rw [h1, h3]
        exact ih (mem_keys_tail h he)

theorem stateMs_setStops (st : Routes) (vid : Vid) (s : List DeliveryRequest)
    (h : vid ∈ st.map Prod.fst) :
    stateMs (setStops st vid s) + (getStops st vid : Multiset DeliveryRequest) =
      stateMs st + (s : Multiset DeliveryRequest) := by
  induction st with
  | nil => simp at h
  | cons e rest ih =>
      by_cases he : e.1 = vid
      · have h1 : setStops (e :: rest) vid s = (e.1, s) :: rest := by simp [setStops, he]
        have h2 : getStops (e :: rest) vid = e.2 := by simp [getStops, alookup, he]
        rw [h1, h2, stateMs_cons, stateMs_cons]
        abel
      · have h1 : setStops (e :: rest) vid s = e :: setStops rest vid s := by
          simp [setStops, he]
        have h3 : getStops (e :: rest) vid = getStops rest vid := by
          simp [getStops, alookup, he]
        rw [h1, h3, stateMs_cons, stateMs_cons]
        have ih2 := ih (mem_keys_tail h he)
        calc (e.2 : Multiset DeliveryRequest) + stateMs (setStops rest vid s) +
              (getStops rest vid : Multiset DeliveryRequest)
            = (e.2 : Multiset DeliveryRequest) +
              (stateMs (setStops rest vid s) +
                (getStops rest vid : Multiset DeliveryRequest)) := by rw [add_assoc]
          _ = (e.2 : Multiset DeliveryRequest) +
              (stateMs rest + (s : Multiset DeliveryRequest)) := by rw [ih2]
          _ = (e.2 : Multiset DeliveryRequest) + stateMs rest +
              (s : Multiset DeliveryRequest) := by rw [add_assoc]

theorem stateMs_appendStop (st : Routes) (vid : Vid) (req : DeliveryRequest)
    (h : vid ∈ st.map Prod.fst) :
    stateMs (appendStop st vid req) = stateMs st + {req} := by
  have h2 := stateMs_setStops st vid (getStops st vid ++ [req]) h
  have h3 : ((getStops st vid ++ [req] : List DeliveryRequest) : Multiset DeliveryRequest) =
      (getStops st vid : Multiset DeliveryRequest) + {req} := by
    rw [← Multiset.coe_add, Multiset.coe_singleton]
  rw [h3] at h2
  rw [appendStop]
  apply add_right_cancel (b := (getStops st vid : Multiset DeliveryRequest))
  rw [h2]
  abel

theorem stateMs_empty_routes (vehicles : List Vehicle) :
    stateMs (vehicles.map fun v => (v.id, [])) = 0 := by
  induction vehicles with
  | nil => rfl
  | cons v vs ih =>
      rw [List.map_cons, stateMs_cons]
      simpa using ih

/-! Index bookkeeping for the nearest-neighbor argmin scan. -/

theorem nnPickAux_lt (dist : NodeId → NodeId → ℚ) (cur : NodeId) :
    ∀ (l : List DeliveryRequest) (i bi : ℕ) (bt : ℚ) (N : ℕ),
      bi < N → i + l.length ≤ N → nnPickAux dist cur l i bi bt < N := by
  intro l
  induction l with
  | nil => intro i bi bt N hbi _; simpa [nnPickAux] using hbi
  | cons r rest ih =>
      intro i bi bt N hbi hlen
      simp only [List.length_cons] at hlen
      by_cases hlt : dist cur r.node < bt
      · rw [nnPickAux, if_pos hlt]
        exact ih (i + 1) i (dist cur r.node) N (by omega) (by omega)
      · rw [nnPickAux, if_neg hlt]
        exact ih (i + 1) bi bt N hbi (by omega)

theorem nnPick_lt (dist : NodeId → NodeId → ℚ) (cur : NodeId)
    (l : List DeliveryRequest) (h : l ≠ []) : nnPick dist cur l < l.length := by
  have hlen : 0 < l.length := List.length_pos.mpr h
  exact nnPickAux_lt dist cur l 0 0 INF l.length hlen (by omega)

theorem coe_getD_cons_eraseIdx (l : List DeliveryRequest) (i : ℕ) (h : i < l.length) :
    ((l.getD i default :: l.eraseIdx i : List DeliveryRequest) :
        Multiset DeliveryRequest) = (l : Multiset DeliveryRequest) := by
  rw [Multiset.coe_eq_coe]
  have h1 : l.getD i default = l[i] := List.getD_eq_getElem l default h
  rw [h1]
  have h2 : List.Perm (l.erase l[i]) (l.eraseIdx i) := List.erase_getElem h
  have h3 : List.Perm l (l[i] :: l.erase l[i]) :=
    List.perm_cons_erase (List.getElem_mem h)
  exact ((h2.symm.cons _).trans h3.symm)

/-- The nearest-neighbor ordering is a permutation of its input: nnGo run
with fuel equal to the list length returns all stops exactly once. -/
theorem nnGo_coe (dist : NodeId → NodeId → ℚ) :
    ∀ (n : ℕ) (cur : NodeId) (l : List DeliveryRequest), l.length = n →
      ((nnGo dist n cur l : List DeliveryRequest) : Multiset DeliveryRequest) =
        (l : Multiset DeliveryRequest) := by
  intro n
  induction n with
  | zero =>
      intro cur l hl
      rw [List.length_eq_zero] at hl
      subst hl
      rfl
  | succ n ih =>
      intro cur l hl
      match l with
      | [] => simp at hl
      | r :: rs =>
          rw [nnGo]
          have hne : (r :: rs : List DeliveryRequest) ≠ [] := by simp
          have hi : nnPick dist cur (r :: rs) < (r :: rs).length := nnPick_lt dist cur _ hne
          have hlen2 : ((r :: rs).eraseIdx (nnPick dist cur (r :: rs))).length = n := by
            have := List.length_eraseIdx_add_one hi
            omega
          have ihe := ih ((r :: rs).getD (nnPick dist cur (r :: rs)) default).node
            ((r :: rs).eraseIdx (nnPick dist cur (r :: rs))) hlen2
          calc (((r :: rs).getD (nnPick dist cur (r :: rs)) default ::
                nnGo dist n ((r :: rs).getD (nnPick dist cur (r :: rs)) default).node
                  ((r :: rs).eraseIdx (nnPick dist cur (r :: rs))) :
                List DeliveryRequest) : Multiset DeliveryRequest)
              = ((r :: rs).getD (nnPick dist cur (r :: rs)) default) ::ₘ
                  (((r :: rs).eraseIdx (nnPick dist cur (r :: rs)) :
                    List DeliveryRequest) : Multiset DeliveryRequest) := by
                rw [← Multiset.cons_coe, ihe]
          _ = ((r :: rs : List DeliveryRequest) : Multiset DeliveryRequest) := by
                rw [← Multiset.cons_coe]
                exact coe_getD_cons_eraseIdx (r :: rs) _ hi

theorem nn_route_coe (depot : NodeId) (requests : List DeliveryRequest)
    (dist : NodeId → NodeId → ℚ) :
    ((build_tsp_route_nearest_neighbor depot requests dist : List DeliveryRequest) :
        Multiset DeliveryRequest) = (requests : Multiset DeliveryRequest) :=
  nnGo_coe dist requests.length depot requests rfl

/-! Facts about the candidate scan of the greedy planner. -/

namespace GreedyVRPPlanner

theorem innerFold_choiceOK (oracle : Oracle) (depot : NodeId) (routes : Routes)
    (vehicles : List Vehicle) (remaining : List DeliveryRequest)
    (req : DeliveryRequest) (hreq : req ∈ remaining) :
    ∀ (vs : List Vehicle), (∀ v ∈ vs, v ∈ vehicles) →
      ∀ acc, choiceOK vehicles remaining acc →
        choiceOK vehicles remaining (vs.foldl (fun acc2 v =>
          if v.capacity < req.demand then acc2
          else
            let cost := route_cost oracle v (getStops routes v.id ++ [req]) depot true
            match acc2 with
            | none => some (v.id, req, cost)
            | some best => if cost < best.2.2 then some (v.id, req, cost) else acc2) acc) := by
  intro vs
  induction vs with
  | nil => intro _ acc hacc; exact hacc
  | cons v rest ih =>
      intro hsub acc hacc
      rw [List.foldl_cons]
      apply ih (fun w hw => hsub w (List.mem_cons_of_mem v hw))
      by_cases hcap : v.capacity < req.demand
      · simpa [hcap] using hacc
      · rw [if_neg hcap]
        match acc with
        | none =>
            exact ⟨hreq, v, hsub v (List.mem_cons_self v rest), rfl⟩
        | some best =>
            by_cases hlt : route_cost oracle v (getStops routes v.id ++ [req]) depot true <
                best.2.2
            · simpa [hlt] using ⟨hreq, v, hsub v (List.mem_cons_self v rest), rfl⟩
            · simpa [hlt] using hacc

theorem bestChoice_choiceOK (oracle : Oracle) (depot : NodeId) (routes : Routes)
    (vehicles : List Vehicle) (remaining : List DeliveryRequest) :
    choiceOK vehicles remaining (bestChoice oracle depot routes vehicles remaining) := by
  rw [bestChoice]
  have main : ∀ (rs : List DeliveryRequest), (∀ r ∈ rs, r ∈ remaining) →
      ∀ acc, choiceOK vehicles remaining acc →
        choiceOK vehicles remaining (rs.foldl (fun acc req =>
          vehicles.foldl (fun acc2 v =>
            if v.capacity < req.demand then acc2
            else
              let cost := route_cost oracle v (getStops routes v.id ++ [req]) depot true
              match acc2 with
              | none => some (v.id, req, cost)
              | some best => if cost < best.2.2 then some (v.id, req, cost) else acc2) acc)
            acc) := by
    intro rs
    induction rs with
    | nil => intro _ acc hacc; exact hacc
    | cons r rest ih =>
        intro hsub acc hacc
        rw [List.foldl_cons]
        apply ih (fun x hx => hsub x (List.mem_cons_of_mem r hx))
        exact innerFold_choiceOK oracle depot routes vehicles remaining r
          (hsub r (List.mem_cons_self r rest)) vehicles (fun _ h => h) acc hacc
  exact main remaining (fun _ h => h) none trivial

theorem bestChoice_mem {oracle : Oracle} {depot : NodeId} {routes : Routes}
    {vehicles : List Vehicle} {remaining : List DeliveryRequest}
    {best : Vid × DeliveryRequest × WithTop ℚ}
    (h : bestChoice oracle depot routes vehicles remaining = some best) :
    best.2.1 ∈ remaining ∧ ∃ v ∈ vehicles, v.id = best.1 := by
  have := bestChoice_choiceOK oracle depot routes vehicles remaining
  rw [h] at this
  exact this

theorem innerFold_isSome_stays (oracle : Oracle) (depot : NodeId) (routes : Routes)
    (req : DeliveryRequest) :
    ∀ (vs : List Vehicle) (acc : Option (Vid × DeliveryRequest × WithTop ℚ)),
      acc.isSome →
      (vs.foldl (fun acc2 v =>
        if v.capacity < req.demand then acc2
        else
          let cost := route_cost oracle v (getStops routes v.id ++ [req]) depot true
          match acc2 with
          | none => some (v.id, req, cost)
          | some best => if cost < best.2.2 then some (v.id, req, cost) else acc2) acc).isSome := by
  intro vs
  induction vs with
  | nil => intro acc h; exact h
  | cons v rest ih =>
      intro acc h
      rw [List.foldl_cons]
      apply ih
      match acc with
      | some best =>
          by_cases hcap : v.capacity < req.demand
          · simp [hcap]
          · by_cases hlt : route_cost oracle v (getStops routes v.id ++ [req]) depot true <
                best.2.2 <;> simp [hcap, hlt]

theorem innerFold_isSome_of_eligible (oracle : Oracle) (depot : NodeId) (routes : Routes)
    (req : DeliveryRequest) :
    ∀ (vs : List Vehicle) (acc : Option (Vid × DeliveryRequest × WithTop ℚ)),
      (∃ v ∈ vs, ¬v.capacity < req.demand) →
      (vs.foldl (fun acc2 v =>
        if v.capacity < req.demand then acc2
        else
          let cost := route_cost oracle v (getStops routes v.id ++ [req]) depot true
          match acc2 with
          | none => some (v.id, req, cost)
          | some best => if cost < best.2.2 then some (v.id, req, cost) else acc2) acc).isSome := by
  intro vs
  induction vs with
  | nil => intro acc h; simp at h
  | cons v rest ih =>
      intro acc h
      rw [List.foldl_cons]
      by_cases hcap : v.capacity < req.demand
      · rcases h with ⟨w, hw, hwc⟩
        rcases List.mem_cons.mp hw with hv | hv
        · exact absurd hcap (hv ▸ hwc)
        · exact ih _ ⟨w, hv, hwc⟩
      · apply innerFold_isSome_stays
        match acc with
        | none => simp [hcap]
        | some best =>
            by_cases hlt : route_cost oracle v (getStops routes v.id ++ [req]) depot true <
                best.2.2 <;> simp [hcap, hlt]

theorem outerFold_isSome_stays (oracle : Oracle) (depot : NodeId) (routes : Routes)
    (vehicles : List Vehicle) :
    ∀ (rs : List DeliveryRequest) (acc : Option (Vid × DeliveryRequest × WithTop ℚ)),
      acc.isSome →
      (rs.foldl (fun acc req =>
        vehicles.foldl (fun acc2 v =>
          if v.capacity < req.demand then acc2
          else
            let cost := route_cost oracle v (getStops routes v.id ++ [req]) depot true
            match acc2 with
            | none => some (v.id, req, cost)
            | some best => if cost < best.2.2 then some (v.id, req, cost) else acc2) acc)
        acc).isSome := by
  intro rs
  induction rs with
  | nil => intro acc h; exact h
  | cons r rest ih =>
      intro acc h
      rw [List.foldl_cons]
      exact ih _ (innerFold_isSome_stays oracle depot routes r vehicles acc h)

/-- Whenever some remaining request has a capacity-eligible vehicle, the
candidate scan produces a choice (even if its cost is infinite). -/
theorem bestChoice_isSome (oracle : Oracle) (depot : NodeId) (routes : Routes)
    (vehicles : List Vehicle) (r : DeliveryRequest) (rest : List DeliveryRequest)
    (h : ∃ v ∈ vehicles, r.demand ≤ v.capacity) :
    (bestChoice oracle depot routes vehicles (r :: rest)).isSome := by
  rw [bestChoice, List.foldl_cons]
  apply outerFold_isSome_stays
  apply innerFold_isSome_of_eligible
  rcases h with ⟨v, hv, hvc⟩
  exact ⟨v, hv, not_lt.mpr hvc⟩

/-- Multiset bookkeeping of the greedy assignment loop: on success, the
final routes hold exactly the initial routes' requests plus all remaining
requests. -/
theorem greedyLoop_ms (oracle : Oracle) (depot : NodeId) (vehicles : List Vehicle) :
    ∀ (fuel : ℕ) (remaining : List DeliveryRequest) (routes out : Routes),
      routes.map Prod.fst = vehicles.map (·.id) →
      greedyLoop oracle depot vehicles fuel remaining routes = .ok out →
      stateMs out = stateMs routes + (remaining : Multiset DeliveryRequest) := by
  intro fuel
  induction fuel with
  | zero =>
      intro remaining routes out hkeys h
      match remaining with
      | [] =>
          rw [greedyLoop] at h
          cases h
          simp
      | r :: rest => exact absurd h (by rw [greedyLoop]; simp)
  | succ fuel ih =>
      intro remaining routes out hkeys h
      match remaining with
      | [] =>
          rw [greedyLoop] at h
          cases h
          simp
      | r :: rest =>
          rw [greedyLoop] at h
          match hbc : bestChoice oracle depot routes vehicles (r :: rest) with
          | none => rw [hbc] at h; exact absurd h (by simp)
          | some best =>
              rw [hbc] at h
              have hmem := bestChoice_mem hbc
              have hvid : best.1 ∈ routes.map Prod.fst := by
                rcases hmem.2 with ⟨v, hv, hveq⟩
                rw [hkeys]
                exact List.mem_map.mpr ⟨v, hv, hveq⟩
              have hkeys2 : (appendStop routes best.1 best.2.1).map Prod.fst =
                  vehicles.map (·.id) := by rw [keys_appendStop]; exact hkeys
              have ih2 := ih ((r :: rest).erase best.2.1)
                (appendStop routes best.1 best.2.1) out hkeys2 h
              rw [ih2, stateMs_appendStop routes best.1 best.2.1 hvid]
              rw [← Multiset.coe_erase]
              have hrm : best.2.1 ∈ ((r :: rest : List DeliveryRequest) :
                  Multiset DeliveryRequest) := by
                rw [Multiset.mem_coe]; exact hmem.1
              calc stateMs routes + {best.2.1} +
                    ((r :: rest : List DeliveryRequest) :
                      Multiset DeliveryRequest).erase best.2.1
                  = stateMs routes + ({best.2.1} +
                    ((r :: rest : List DeliveryRequest) :
                      Multiset DeliveryRequest).erase best.2.1) := by rw [add_assoc]
                _ = stateMs routes + ((r :: rest : List DeliveryRequest) :
                      Multiset DeliveryRequest) := by
                    rw [Multiset.singleton_add, Multiset.cons_erase hrm]

/-- The greedy loop never adds or removes a route entry: the final plan's
keys are the initial dict's keys. -/
theorem greedyLoop_keys (oracle : Oracle) (depot : NodeId) (vehicles : List Vehicle) :
    ∀ (fuel : ℕ) (remaining : List DeliveryRequest) (routes out : Routes),
      greedyLoop oracle depot vehicles fuel remaining routes = .ok out →
      out.map Prod.fst = routes.map Prod.fst := by
  intro fuel
  induction fuel with
  | zero =>
      intro remaining routes out h
      match remaining with
      | [] => rw [greedyLoop] at h; cases h; rfl
      | r :: rest => exact absurd h (by rw [greedyLoop]; simp)
  | succ fuel ih =>
      intro remaining routes out h
      match remaining with
      | [] => rw [greedyLoop] at h; cases h; rfl
      | r :: rest =>
          rw [greedyLoop] at h
          match hbc : bestChoice oracle depot routes vehicles (r :: rest) with
          | none => rw [hbc] at h; exact absurd h (by simp)
          | some best =>
              rw [hbc] at h
              rw [ih _ _ _ h, keys_appendStop]

/-- Termination and success of the greedy loop: with fuel at least the
number of remaining requests and every remaining request carriable by
some vehicle, the loop returns a plan (never an error). -/
theorem greedyLoop_ok (oracle : Oracle) (depot : NodeId) (vehicles : List Vehicle) :
    ∀ (fuel : ℕ) (remaining : List DeliveryRequest) (routes : Routes),
      remaining.length ≤ fuel →
      (∀ r ∈ remaining, ∃ v ∈ vehicles, r.demand ≤ v.capacity) →
      ∃ out, greedyLoop oracle depot vehicles fuel remaining routes = .ok out := by
  intro fuel
  induction fuel with
  | zero =>
      intro remaining routes hlen _
      match remaining with
      | [] => exact ⟨routes, by rw [greedyLoop]⟩
      | r :: rest => simp at hlen
  | succ fuel ih =>
      intro remaining routes hlen helig
      match remaining with
      | [] => exact ⟨routes, by rw [greedyLoop]⟩
      | r :: rest =>
          have hsome := bestChoice_isSome oracle depot routes vehicles r rest
            (helig r (List.mem_cons_self r rest))
          match hbc : bestChoice oracle depot routes vehicles (r :: rest) with
          | none => rw [hbc] at hsome; simp at hsome
          | some best =>
              have hmem := bestChoice_mem hbc
              have hlen2 : ((r :: rest).erase best.2.1).length ≤ fuel := by
                have := List.length_erase_add_one hmem.1
                simp only [List.length_cons] at hlen this
                omega
              have helig2 : ∀ q ∈ (r :: rest).erase best.2.1,
                  ∃ v ∈ vehicles, q.demand ≤ v.capacity :=
                fun q hq => helig q (List.mem_of_mem_erase hq)
              rcases ih _ (appendStop routes best.1 best.2.1) hlen2 helig2 with ⟨out, hout⟩
              refine ⟨out, ?_⟩
              rw [greedyLoop, hbc]
              exact hout

/-- Refinement of the basic evaluator's walking loop by the spec's walk:
with positive demands, the loop's cost is the sum of the oracle times of
the walk's legs (with the final return folded in). -/
theorem routeCostLoop_eq_spec (oracle : Oracle) (depot : NodeId) (cap : ℤ) (ret : Bool) :
    ∀ (stops : List DeliveryRequest) (cur : NodeId) (capLeft : ℤ),
      (∀ r ∈ stops, 0 < r.demand) →
      routeCostLoop oracle depot cap ret stops cur capLeft =
        ((specLegs depot cap stops cur capLeft ++
          finalLeg depot ret (walkEnd cur stops)).map (legTime oracle)).sum := by
  intro stops
  induction stops with
  | nil =>
      intro cur capLeft _
      rw [routeCostLoop, specLegs, List.nil_append]
      by_cases h : ret = true ∧ ¬cur = depot
      · rw [if_pos h, walkEnd, finalLeg, if_pos h]
        cases ho : oracle cur depot <;> simp [legTime, ho]
      · rw [if_neg h, walkEnd, finalLeg, if_neg h]
        simp
  | cons req rest ih =>
      intro cur capLeft hdem
      have hd : 0 < req.demand := hdem req (List.mem_cons_self req rest)
      have hrest : ∀ r ∈ rest, 0 < r.demand :=
        fun r hr => hdem r (List.mem_cons_of_mem req hr)
      rw [routeCostLoop, if_neg (by omega : ¬req.demand ≤ 0), specLegs]
      have hwalk : walkEnd cur (req :: rest) = walkEnd req.node rest := rfl
      rw [hwalk]
      by_cases hcap : capLeft < req.demand
      · by_cases hcur : cur = depot
        · have hback : ¬(capLeft < req.demand ∧ ¬cur = depot) := by
            intro hh; exact hh.2 hcur
          simp only [if_pos hcap, if_neg hback, if_pos hcur, List.nil_append]
          cases ho : oracle depot req.node with
          | none =>
              simp [legTime, ho]
          | some travel =>
              rw [ih req.node (cap - req.demand) hrest]
              simp [legTime, ho, add_assoc]
        · have hback : capLeft < req.demand ∧ ¬cur = depot := ⟨hcap, hcur⟩
          simp only [if_pos hcap, if_pos hback, if_neg hcur]
          cases hb : oracle cur depot with
          | none =>
              simp [legTime, hb]
          | some d =>
              cases ho : oracle depot req.node with
              | none => simp [legTime, hb, ho]
              | some travel =>
                  rw [ih req.node (cap - req.demand) hrest]
                  simp [legTime, hb, ho, add_assoc]
      · have hback : ¬(capLeft < req.demand ∧ ¬cur = depot) := by
          intro hh; exact hcap hh.1
        simp only [if_neg hcap, if_neg hback]
        cases ho : oracle cur req.node with
        | none => simp [legTime, ho]
        | some travel =>
            rw [ih req.node (capLeft - req.demand) hrest]
            simp [legTime, ho, add_assoc]

/-- GreedyVRPPlanner._route_cost refines the spec's capacity-aware walk
whenever the capacity is positive and all demands are positive. -/
theorem route_cost_eq_spec (oracle : Oracle) (vehicle : Vehicle)
    (stops : List DeliveryRequest) (depot : NodeId) (ret : Bool)
    (hcap : 0 < vehicle.capacity) (hdem : ∀ r ∈ stops, 0 < r.demand) :
    route_cost oracle vehicle stops depot ret = specRouteCost oracle vehicle stops depot ret := by
  rw [route_cost, if_neg (by omega : ¬vehicle.capacity ≤ 0), specRouteCost, specWalkLegs]
  exact routeCostLoop_eq_spec oracle depot vehicle.capacity ret stops vehicle.start_node
    vehicle.capacity hdem

end GreedyVRPPlanner

/-- Refinement of the cache-based evaluator's walking loop by the spec's
walk: with positive demands, the loop's result is the carried total plus
the sum of the cached times of the walk's legs. -/
theorem routeTimeLoop_eq_spec (depot : NodeId) (dist : NodeId → NodeId → ℚ) (cap : ℤ) :
    ∀ (stops : List DeliveryRequest) (cur : NodeId) (capLeft : ℤ) (total : ℚ),
      (∀ r ∈ stops, 0 < r.demand) →
      routeTimeLoop depot dist cap stops cur capLeft total =
        total + ((specLegs depot cap stops cur capLeft ++
          finalLeg depot true (walkEnd cur stops)).map fun p => dist p.1 p.2).sum := by
  intro stops
  induction stops with
  | nil =>
      intro cur capLeft total _
      rw [routeTimeLoop, specLegs, List.nil_append]
      by_cases h : ¬cur = depot
      · rw [if_pos h, walkEnd, finalLeg, if_pos ⟨rfl, h⟩]
        simp
      · rw [if_neg h, walkEnd, finalLeg, if_neg (by simpa using h)]
        simp
  | cons req rest ih =>
      intro cur capLeft total hdem
      have hd : 0 < req.demand := hdem req (List.mem_cons_self req rest)
      have hrest : ∀ r ∈ rest, 0 < r.demand :=
        fun r hr => hdem r (List.mem_cons_of_mem req hr)
      rw [routeTimeLoop, if_neg (by omega : ¬req.demand ≤ 0), specLegs]
      have hwalk : walkEnd cur (req :: rest) = walkEnd req.node rest := rfl
      rw [hwalk]
      by_cases hcap : capLeft < req.demand
      · by_cases hcur : cur = depot
        · have hback : ¬(capLeft < req.demand ∧ ¬cur = depot) := by
            intro hh; exact hh.2 hcur
          simp only [if_pos hcap, if_neg hback, if_pos hcur, List.nil_append]
          rw [ih req.node (cap - req.demand) (total + dist depot req.node) hrest]
          simp only [List.cons_append, List.map_cons, List.sum_cons]
          ring
        · have hback : capLeft < req.demand ∧ ¬cur = depot := ⟨hcap, hcur⟩
          simp only [if_pos hcap, if_pos hback, if_neg hcur]
          rw [ih req.node (cap - req.demand)
            (total + dist cur depot + dist depot req.node) hrest]
          simp only [List.cons_append, List.singleton_append, List.map_cons, List.sum_cons,
            List.nil_append]
          ring
      · have hback : ¬(capLeft < req.demand ∧ ¬cur = depot) := by
          intro hh; exact hcap hh.1
        simp only [if_neg hcap, if_neg hback]
        rw [ih req.node (capLeft - req.demand) (total + dist cur req.node) hrest]
        simp only [List.cons_append, List.map_cons, List.sum_cons]
        ring

/-- A WithTop list sum containing the top element is the top element. -/
theorem sum_eq_top_of_mem : ∀ {l : List (WithTop ℚ)}, (⊤ : WithTop ℚ) ∈ l → l.sum = ⊤ := by
  intro l
  induction l with
  | nil => intro h; simp at h
  | cons x rest ih =>
      intro h
      rcases List.mem_cons.mp h with h | h
      · rw [List.sum_cons, ← h, WithTop.top_add]
      · rw [List.sum_cons, ih h, WithTop.add_top]

namespace GreedyVRPPlanner

/-- Any stop of non-positive demand forces the basic evaluator's loop to
the infinite cost, whatever happens before it. -/
theorem routeCostLoop_top_of_nonpos (oracle : Oracle) (depot : NodeId) (cap : ℤ)
    (ret : Bool) :
    ∀ (stops : List DeliveryRequest) (cur : NodeId) (capLeft : ℤ),
      (∃ r ∈ stops, r.demand ≤ 0) →
      routeCostLoop oracle depot cap ret stops cur capLeft = ⊤ := by
  intro stops
  induction stops with
  | nil => intro cur capLeft h; simp at h
  | cons req rest ih =>
      intro cur capLeft h
      rw [routeCostLoop]
      by_cases hd : req.demand ≤ 0
      · rw [if_pos hd]
      · rw [if_neg hd]
        have hex : ∃ r ∈ rest, r.demand ≤ 0 := by
          rcases h with ⟨r, hr, hrd⟩
          rcases List.mem_cons.mp hr with h1 | h1
          · exact absurd (h1 ▸ hrd) hd
          · exact ⟨r, h1, hrd⟩
        have ihr := ih req.node
        cases hb : (if capLeft < req.demand ∧ ¬cur = depot then oracle cur depot
            else some 0) with
        | none => simp [hb]
        | some d =>
            cases ho : oracle (if capLeft < req.demand then depot else cur) req.node with
            | none => simp [hb, ho]
            | some travel =>
                simp only [hb, ho]
                rw [ih req.node _ hex, WithTop.add_top]

/-- GreedyVRPPlanner._route_cost short-circuits to the infinite cost as
soon as any leg of the capacity-aware walk is unreachable. -/
theorem route_cost_top_of_unreachable (oracle : Oracle) (vehicle : Vehicle)
    (stops : List DeliveryRequest) (depot : NodeId) (ret : Bool)
    (h : ∃ p ∈ specWalkLegs depot vehicle.capacity ret stops vehicle.start_node,
      oracle p.1 p.2 = none) :
    route_cost oracle vehicle stops depot ret = ⊤ := by
  by_cases hcap : vehicle.capacity ≤ 0
  · rw [route_cost, if_pos hcap]
  · by_cases hdem : ∀ r ∈ stops, 0 < r.demand
    · rw [route_cost_eq_spec oracle vehicle stops depot ret (by omega) hdem, specRouteCost]
      rcases h with ⟨p, hp, hpo⟩
      apply sum_eq_top_of_mem
      have : legTime oracle p = ⊤ := by rw [legTime, hpo]
      rw [← this]
      exact List.mem_map_of_mem (legTime oracle) hp
    · push_neg at hdem
      rcases hdem with ⟨r, hr, hrd⟩
      rw [route_cost, if_neg hcap]
      exact routeCostLoop_top_of_nonpos oracle depot vehicle.capacity ret stops
        vehicle.start_node vehicle.capacity ⟨r, hr, by omega⟩

end GreedyVRPPlanner

theorem ms_add_single {α : Type} (s : Multiset α) (a : α) : s + {a} = a ::ₘ s := by
  rw [add_comm, Multiset.singleton_add]

theorem choice_mem {α : Type} [Inhabited α] (rng : Rng) (k : ℕ) (l : List α)
    (h : l ≠ []) : choice rng k l ∈ l := by
  have hlen : 0 < l.length := List.length_pos.mpr h
  have hmod : rng.draw k % l.length < l.length := Nat.mod_lt _ hlen
  rw [choice, List.getD_eq_getElem l default hmod]
  exact List.getElem_mem hmod

/-- random_move never changes the key structure of the state. -/
theorem random_move_keys (state : MCState) (vehicles : List Vehicle) (rng : Rng)
    (k : ℕ) : (random_move state vehicles rng k).1.map Prod.fst = state.map Prod.fst := by
  rw [random_move]
  by_cases hempty : getStops state (choice rng k (vehicles.map (·.id))) = []
  · rw [if_pos hempty]
  · rw [if_neg hempty]
    by_cases hto : (vehicles.map (·.id)).filter
        (fun vid => ¬vid = choice rng k (vehicles.map (·.id))) = []
    · rw [if_pos hto]
      rw [keys_setStops, keys_setStops]
    · rw [if_neg hto]
      rw [keys_appendStop, keys_setStops]

/-- random_move preserves the multiset of assigned requests: it only moves
one request between per-vehicle lists. -/
theorem random_move_ms (state : MCState) (vehicles : List Vehicle) (rng : Rng)
    (k : ℕ) (hkeys : state.map Prod.fst = vehicles.map (·.id))
    (hne : vehicles ≠ []) :
    stateMs (random_move state vehicles rng k).1 = stateMs state := by
  have hvne : vehicles.map (·.id) ≠ [] := by
    intro hh
    exact hne (List.map_eq_nil_iff.mp hh)
  set from_vid := choice rng k (vehicles.map (·.id)) with hfv
  have hfmem : from_vid ∈ state.map Prod.fst := by
    rw [hkeys]
    exact choice_mem rng k _ hvne
  rw [random_move]
  by_cases hempty : getStops state from_vid = []
  · rw [← hfv, if_pos hempty]
  · rw [← hfv, if_neg hempty]
    set fromList := getStops state from_vid with hfl
    have hlenpos : 0 < fromList.length := List.length_pos.mpr hempty
    have hidx : rng.draw (k + 1) % fromList.length < fromList.length :=
      Nat.mod_lt _ hlenpos
    set r_idx := rng.draw (k + 1) % fromList.length with hri
    set req := fromList.getD r_idx default with hreq
    set popped := fromList.eraseIdx r_idx with hpo
    have hsplit : (req : DeliveryRequest) ::ₘ (popped : Multiset DeliveryRequest) =
        (fromList : Multiset DeliveryRequest) := by
      rw [hreq, hpo, Multiset.cons_coe]
      exact coe_getD_cons_eraseIdx fromList r_idx hidx
    have hsum : (popped : Multiset DeliveryRequest) + {req} =
        (fromList : Multiset DeliveryRequest) := by
      rw [ms_add_single]
      exact hsplit
    have hco : ((popped ++ [req] : List DeliveryRequest) : Multiset DeliveryRequest) =
        (fromList : Multiset DeliveryRequest) := by
      rw [← Multiset.coe_add, Multiset.coe_singleton, hsum]
    have hst1 : stateMs (setStops state from_vid popped) +
        (fromList : Multiset DeliveryRequest) =
        stateMs state + (popped : Multiset DeliveryRequest) := by
      rw [hfl]
      exact stateMs_setStops state from_vid popped hfmem
    have hkeys1 : (setStops state from_vid popped).map Prod.fst = state.map Prod.fst :=
      keys_setStops state from_vid popped
    have hfmem1 : from_vid ∈ (setStops state from_vid popped).map Prod.fst := by
      rw [hkeys1]; exact hfmem
    by_cases hto : (vehicles.map (·.id)).filter (fun vid => ¬vid = from_vid) = []
    · rw [if_pos hto]
      have hget1 : getStops (setStops state from_vid popped) from_vid = popped :=
        getStops_setStops_self state from_vid popped hfmem
      have h2 : stateMs (setStops (setStops state from_vid popped) from_vid
            (popped ++ [req])) + (popped : Multiset DeliveryRequest) =
          stateMs (setStops state from_vid popped) +
            ((popped ++ [req] : List DeliveryRequest) : Multiset DeliveryRequest) := by
        have h3 := stateMs_setStops (setStops state from_vid popped) from_vid
          (popped ++ [req]) hfmem1
        rw [hget1] at h3
        exact h3
      apply add_right_cancel (b := (popped : Multiset DeliveryRequest))
      rw [h2, hco, hst1]
    · rw [if_neg hto]
      have htomem : choice rng (k + 2)
          ((vehicles.map (·.id)).filter (fun vid => ¬vid = from_vid)) ∈
          (setStops state from_vid popped).map Prod.fst := by
        rw [hkeys1, hkeys]
        exact List.mem_of_mem_filter (choice_mem rng (k + 2) _ hto)
      rw [stateMs_appendStop _ _ _ htomem]
      apply add_right_cancel (b := (popped : Multiset DeliveryRequest))
      rw [add_assoc, add_comm ({req} : Multiset DeliveryRequest)
        (popped : Multiset DeliveryRequest), hsum, hst1]

/-- grouping_monte_carlo.route_time refines the spec's capacity-aware walk
whenever the capacity is positive and all demands are positive. -/
theorem route_time_eq_spec (depot : NodeId) (stops : List DeliveryRequest)
    (dist : NodeId → NodeId → ℚ) (cap : ℤ)
    (hcap : 0 < cap) (hdem : ∀ r ∈ stops, 0 < r.demand) :
    route_time depot stops dist cap = specRouteTime depot stops dist cap := by
  rw [route_time, specRouteTime, specWalkLegs]
  by_cases hstops : stops = []
  · subst hstops
    rw [if_pos rfl, specLegs, walkEnd, finalLeg]
    simp
  · rw [if_neg hstops, if_neg (by omega : ¬cap ≤ 0)]
    rw [routeTimeLoop_eq_spec depot dist cap stops depot cap 0 hdem]
    simp


theorem getStops_cons_ne (e : Vid × List DeliveryRequest) (st : Routes) (vid : Vid)
    (h : ¬e.1 = vid) : getStops (e :: st) vid = getStops st vid := by
  simp [getStops, alookup, h]

/-- Bookkeeping of the random initial assignment: the fold appending each
shuffled request to a randomly chosen vehicle keeps the key structure and
adds exactly the consumed requests. -/
theorem initFold_keys_ms (vehicles : List Vehicle) (rng : Rng) (hne : vehicles ≠ []) :
    ∀ (l : List DeliveryRequest) (st : MCState) (k : ℕ),
      st.map Prod.fst = vehicles.map (·.id) →
      ((l.foldl (fun sk req =>
          ((appendStop sk.1 (choice rng sk.2 vehicles).id req), sk.2 + 1)) (st, k)).1.map
        Prod.fst = vehicles.map (·.id)) ∧
      stateMs (l.foldl (fun sk req =>
          ((appendStop sk.1 (choice rng sk.2 vehicles).id req), sk.2 + 1)) (st, k)).1 =
        stateMs st + (l : Multiset DeliveryRequest) := by
  intro l
  induction l with
  | nil => intro st k h; exact ⟨h, by simp⟩
  | cons r rest ih =>
      intro st k h
      rw [List.foldl_cons]
      have hmem : (choice rng k vehicles).id ∈ st.map Prod.fst := by
        rw [h]
        exact List.mem_map_of_mem (·.id) (choice_mem rng k vehicles hne)
      have hkeys2 : (appendStop st (choice rng k vehicles).id r).map Prod.fst =
          vehicles.map (·.id) := by rw [keys_appendStop]; exact h
      rcases ih (appendStop st (choice rng k vehicles).id r) (k + 1) hkeys2 with ⟨ha, hb⟩
      refine ⟨ha, ?_⟩
      rw [hb, stateMs_appendStop st _ r hmem, add_assoc, Multiset.singleton_add,
        Multiset.cons_coe]

theorem init_state_random_keys (vehicles : List Vehicle) (requests : List DeliveryRequest)
    (rng : Rng) (k : ℕ) (hne : vehicles ≠ []) :
    (init_state_random vehicles requests rng k).1.map Prod.fst = vehicles.map (·.id) := by
  rw [init_state_random]
  have h0 : (vehicles.map fun v => (v.id, ([] : List DeliveryRequest))).map Prod.fst =
      vehicles.map (·.id) := by simp
  exact (initFold_keys_ms vehicles rng hne (rng.shuf requests) _ k h0).1

theorem init_state_random_ms (vehicles : List Vehicle) (requests : List DeliveryRequest)
    (rng : Rng) (k : ℕ) (hne : vehicles ≠ []) :
    stateMs (init_state_random vehicles requests rng k).1 =
      (requests : Multiset DeliveryRequest) := by
  rw [init_state_random]
  have h0 : (vehicles.map fun v => (v.id, ([] : List DeliveryRequest))).map Prod.fst =
      vehicles.map (·.id) := by simp
  have h1 := (initFold_keys_ms vehicles rng hne (rng.shuf requests) _ k h0).2
  rw [h1, stateMs_empty_routes, zero_add, Multiset.coe_eq_coe]
  exact rng.shuf_perm requests

/-- One-step unfolding of the hill-climbing loop. -/
theorem mcLoop_succ (depot : NodeId) (vehicles : List Vehicle)
    (dist : NodeId → NodeId → ℚ) (rng : Rng) (n k : ℕ) (cur : MCState) (cc : ℚ)
    (best : MCState) (bc : ℚ) :
    mcLoop depot vehicles dist rng (n + 1) k cur cc best bc =
      (if evaluate_state depot vehicles (random_move cur vehicles rng k).1 dist ≤ cc then
        if evaluate_state depot vehicles (random_move cur vehicles rng k).1 dist < bc then
          mcLoop depot vehicles dist rng n (random_move cur vehicles rng k).2
            (random_move cur vehicles rng k).1
            (evaluate_state depot vehicles (random_move cur vehicles rng k).1 dist)
            (random_move cur vehicles rng k).1
            (evaluate_state depot vehicles (random_move cur vehicles rng k).1 dist)
        else
          mcLoop depot vehicles dist rng n (random_move cur vehicles rng k).2
            (random_move cur vehicles rng k).1
            (evaluate_state depot vehicles (random_move cur vehicles rng k).1 dist)
            best bc
      else mcLoop depot vehicles dist rng n (random_move cur vehicles rng k).2
        cur cc best bc) := rfl

/-- The key structure and request multiset of the retained best state are
loop invariants of the hill-climbing search. -/
theorem mcLoop_keys_ms (depot : NodeId) (vehicles : List Vehicle)
    (dist : NodeId → NodeId → ℚ) (rng : Rng) (hne : vehicles ≠ [])
    (M : Multiset DeliveryRequest) :
    ∀ (n k : ℕ) (cur : MCState) (cc : ℚ) (best : MCState) (bc : ℚ),
      cur.map Prod.fst = vehicles.map (·.id) → stateMs cur = M →
      best.map Prod.fst = vehicles.map (·.id) → stateMs best = M →
      ((mcLoop depot vehicles dist rng n k cur cc best bc).2.2.1.map Prod.fst =
        vehicles.map (·.id)) ∧
      stateMs (mcLoop depot vehicles dist rng n k cur cc best bc).2.2.1 = M := by
  intro n
  induction n with
  | zero => intro k cur cc best bc _ _ h3 h4; exact ⟨h3, h4⟩
  | succ n ih =>
      intro k cur cc best bc h1 h2 h3 h4
      rw [mcLoop_succ]
      have hck : (random_move cur vehicles rng k).1.map Prod.fst =
          vehicles.map (·.id) := by
        rw [random_move_keys]; exact h1
      have hcm : stateMs (random_move cur vehicles rng k).1 = M := by
        rw [random_move_ms cur vehicles rng k h1 hne]; exact h2
      by_cases hacc : evaluate_state depot vehicles
          (random_move cur vehicles rng k).1 dist ≤ cc
      · rw [if_pos hacc]
        by_cases himp : evaluate_state depot vehicles
            (random_move cur vehicles rng k).1 dist < bc
        · rw [if_pos himp]
          exact ih _ _ _ _ _ hck hcm hck hcm
        · rw [if_neg himp]
          exact ih _ _ _ _ _ hck hcm h3 h4
      · rw [if_neg hacc]
        exact ih _ _ _ _ _ h1 h2 h3 h4

/-- The retained best objective never exceeds the best objective it
started from. -/
theorem mcLoop_best_le (depot : NodeId) (vehicles : List Vehicle)
    (dist : NodeId → NodeId → ℚ) (rng : Rng) :
    ∀ (n k : ℕ) (cur : MCState) (cc : ℚ) (best : MCState) (bc : ℚ),
      (mcLoop depot vehicles dist rng n k cur cc best bc).2.2.2 ≤ bc := by
  intro n
  induction n with
  | zero => intro k cur cc best bc; exact le_refl bc
  | succ n ih =>
      intro k cur cc best bc
      rw [mcLoop_succ]
      by_cases hacc : evaluate_state depot vehicles
          (random_move cur vehicles rng k).1 dist ≤ cc
      · rw [if_pos hacc]
        by_cases himp : evaluate_state depot vehicles
            (random_move cur vehicles rng k).1 dist < bc
        · rw [if_pos himp]
          exact le_trans (ih _ _ _ _ _) (le_of_lt himp)
        · rw [if_neg himp]
          exact ih _ _ _ _ _
      · rw [if_neg hacc]
        exact ih _ _ _ _ _

/-- The retained best objective is non-increasing in the iteration count. -/
theorem mcLoop_best_monotone (depot : NodeId) (vehicles : List Vehicle)
    (dist : NodeId → NodeId → ℚ) (rng : Rng) :
    ∀ (n k : ℕ) (cur : MCState) (cc : ℚ) (best : MCState) (bc : ℚ),
      (mcLoop depot vehicles dist rng (n + 1) k cur cc best bc).2.2.2 ≤
        (mcLoop depot vehicles dist rng n k cur cc best bc).2.2.2 := by
  intro n
  induction n with
  | zero =>
      intro k cur cc best bc
      exact mcLoop_best_le depot vehicles dist rng 1 k cur cc best bc
  | succ n ih =>
      intro k cur cc best bc
      rw [mcLoop_succ depot vehicles dist rng (n + 1) k cur cc best bc,
        mcLoop_succ depot vehicles dist rng n k cur cc best bc]
      by_cases hacc : evaluate_state depot vehicles
          (random_move cur vehicles rng k).1 dist ≤ cc
      · rw [if_pos hacc, if_pos hacc]
        by_cases himp : evaluate_state depot vehicles
            (random_move cur vehicles rng k).1 dist < bc
        · rw [if_pos himp, if_pos himp]
          exact ih _ _ _ _ _
        · rw [if_neg himp, if_neg himp]
          exact ih _ _ _ _ _
      · rw [if_neg hacc, if_neg hacc]
        exact ih _ _ _ _ _

/-- Rebuilding the plan from a state whose keys are exactly the (distinct)
fleet ids keeps the multiset of requests: each vehicle contributes the
nearest-neighbor ordering of its own assigned list. -/
theorem stateMs_rebuild (dist : NodeId → NodeId → ℚ) (depot : NodeId) :
    ∀ (vehicles : List Vehicle) (st : MCState),
      st.map Prod.fst = vehicles.map (·.id) → (vehicles.map (·.id)).Nodup →
      stateMs (vehicles.map fun v =>
        (v.id, build_tsp_route_nearest_neighbor depot (getStops st v.id) dist)) =
        stateMs st := by
  intro vehicles
  induction vehicles with
  | nil =>
      intro st h _
      have h2 : st.map Prod.fst = [] := by simpa using h
      have hst : st = [] := List.map_eq_nil_iff.mp h2
      subst hst
      rfl
  | cons v vs ih =>
      intro st h hnd
      match st with
      | [] => simp at h
      | e :: st2 =>
          simp only [List.map_cons, List.cons.injEq] at h
          obtain ⟨h1, h2⟩ := h
          rw [List.map_cons, List.nodup_cons] at hnd
          obtain ⟨hv, hnd2⟩ := hnd
          have hget : getStops (e :: st2) v.id = e.2 := by
            simp [getStops, alookup, h1]
          have hmapeq : vs.map (fun w =>
              (w.id, build_tsp_route_nearest_neighbor depot
                (getStops (e :: st2) w.id) dist)) = vs.map (fun w =>
              (w.id, build_tsp_route_nearest_neighbor depot
                (getStops st2 w.id) dist)) := by
            apply List.map_congr_left
            intro w hw
            have hw2 : w.id ∈ vs.map (·.id) := List.mem_map_of_mem (·.id) hw
            have hne2 : ¬e.1 = w.id := by
              intro hh
              have hvw : v.id = w.id := by rw [← h1]; exact hh
              exact hv (by rw [hvw]; exact hw2)
            rw [getStops_cons_ne e st2 w.id hne2]
          rw [List.map_cons, stateMs_cons, stateMs_cons, hget, hmapeq,
            ih st2 h2 hnd2, nn_route_coe]


/-! Store lemmas for the reference-level model of random_move. -/

theorem alookup_mem {κ β : Type} [DecidableEq κ] :
    ∀ (l : List (κ × β)) (k : κ) (b : β), alookup l k = some b → (k, b) ∈ l := by
  intro l
  induction l with
  | nil => intro k b h; simp [alookup] at h
  | cons e rest ih =>
      intro k b h
      rw [alookup] at h
      by_cases he : e.1 = k
      · rw [if_pos he] at h
        have hb : e.2 = b := by injection h
        subst he
        subst hb
        simp
      · rw [if_neg he] at h
        exact List.mem_cons_of_mem e (ih k b h)

theorem alookup_isSome_of_mem {κ β : Type} [DecidableEq κ] :
    ∀ (l : List (κ × β)) (k : κ), k ∈ l.map Prod.fst → (alookup l k).isSome := by
  intro l
  induction l with
  | nil => intro k h; simp at h
  | cons e rest ih =>
      intro k h
      rw [alookup]
      by_cases he : e.1 = k
      · rw [if_pos he]; rfl
      · rw [if_neg he]
        exact ih k (mem_keys_tail h he)

theorem read_of_prefix (s : Store) (ext : List (List DeliveryRequest)) (r : ℕ)
    (h : r < s.cells.length) :
    Store.read ⟨s.cells ++ ext⟩ r = s.read r := by
  rw [Store.read, Store.read]
  exact List.getD_append _ _ _ _ h

theorem read_write_ne (s : Store) (r r2 : ℕ) (l : List DeliveryRequest)
    (h : ¬r2 = r) : (s.write r l).read r2 = s.read r2 := by
  rw [Store.write, Store.read, Store.read]
  rw [List.getD_eq_getD_get?, List.getD_eq_getD_get?, List.get?_eq_getElem?,
    List.get?_eq_getElem?]
  rw [List.getElem?_set_ne (fun hh => h hh.symm)]

theorem copyState_cells : ∀ (st : MCStateR) (s : Store),
    ∃ ext, (copyState s st).1.cells = s.cells ++ ext := by
  intro st
  induction st with
  | nil => intro s; exact ⟨[], by simp [copyState]⟩
  | cons e rest ih =>
      intro s
      rw [copyState]
      rcases ih (s.alloc (s.read e.2)).1 with ⟨ext2, hext2⟩
      refine ⟨[s.read e.2] ++ ext2, ?_⟩
      rw [hext2, Store.alloc, List.append_assoc]

theorem copyState_refs_ge : ∀ (st : MCStateR) (s : Store),
    ∀ p ∈ (copyState s st).2, s.cells.length ≤ p.2 := by
  intro st
  induction st with
  | nil => intro s p hp; simp [copyState] at hp
  | cons e rest ih =>
      intro s p hp
      rw [copyState] at hp
      rcases List.mem_cons.mp hp with h | h
      · rw [h, Store.alloc]
      · have h2 := ih (s.alloc (s.read e.2)).1 p h
        rw [Store.alloc] at h2
        simp only [List.length_append, List.length_cons, List.length_nil] at h2
        omega

theorem copyState_keys : ∀ (st : MCStateR) (s : Store),
    (copyState s st).2.map Prod.fst = st.map Prod.fst := by
  intro st
  induction st with
  | nil => intro s; rfl
  | cons e rest ih =>
      intro s
      rw [copyState, List.map_cons, List.map_cons, ih]


theorem getStops_empty_routes (vehicles : List Vehicle) (vid : Vid) :
    getStops (vehicles.map fun v => (v.id, [])) vid = [] := by
  induction vehicles with
  | nil => rfl
  | cons v vs ih =>
      by_cases h : v.id = vid
      · simp [getStops, alookup, h]
      · rw [List.map_cons, getStops_cons_ne _ _ _ h]
        exact ih


/-! Unfolding helpers for the two planners. -/

theorem mc_build_plan_empty (oracle : Oracle) (depot : NodeId) (vehicles : List Vehicle)
    (rng : Rng) (iterations k : ℕ) :
    MonteCarloGroupingPlanner.build_plan oracle depot vehicles [] rng iterations k =
      ⟨⟨depot, vehicles.map fun v => (v.id, [])⟩, 0⟩ := rfl

theorem mc_build_plan_eq (oracle : Oracle) (depot : NodeId) (vehicles : List Vehicle)
    (requests : List DeliveryRequest) (rng : Rng) (iterations k : ℕ)
    (h : ¬requests = []) :
    MonteCarloGroupingPlanner.build_plan oracle depot vehicles requests rng iterations k =
      ⟨⟨depot, vehicles.map fun v =>
        (v.id, build_tsp_route_nearest_neighbor depot
          (getStops (mcLoop depot vehicles (mcDist oracle depot requests) rng iterations
            (init_state_random vehicles requests rng k).2
            (init_state_random vehicles requests rng k).1
            (evaluate_state depot vehicles (init_state_random vehicles requests rng k).1
              (mcDist oracle depot requests))
            (init_state_random vehicles requests rng k).1
            (evaluate_state depot vehicles (init_state_random vehicles requests rng k).1
              (mcDist oracle depot requests))).2.2.1 v.id)
          (mcDist oracle depot requests))⟩,
      (mcLoop depot vehicles (mcDist oracle depot requests) rng iterations
        (init_state_random vehicles requests rng k).2
        (init_state_random vehicles requests rng k).1
        (evaluate_state depot vehicles (init_state_random vehicles requests rng k).1
          (mcDist oracle depot requests))
        (init_state_random vehicles requests rng k).1
        (evaluate_state depot vehicles (init_state_random vehicles requests rng k).1
          (mcDist oracle depot requests))).2.2.2⟩ := by
  rw [MonteCarloGroupingPlanner.build_plan, if_neg h]

theorem greedy_build_plan_of_find_some (oracle : Oracle) (depot : NodeId)
    (vehicles : List Vehicle) (requests : List DeliveryRequest) (r : DeliveryRequest)
    (hfind : requests.find? (fun r => vehicles.all fun v => v.capacity < r.demand) =
      some r) :
    GreedyVRPPlanner.build_plan oracle depot vehicles requests =
      .error (.infeasible r.id r.demand) := by
  rw [GreedyVRPPlanner.build_plan.eq_def, hfind]

theorem greedy_build_plan_of_ok (oracle : Oracle) (depot : NodeId)
    (vehicles : List Vehicle) (requests : List DeliveryRequest) (routes : Routes)
    (hfind : requests.find? (fun r => vehicles.all fun v => v.capacity < r.demand) = none)
    (hloop : GreedyVRPPlanner.greedyLoop oracle depot vehicles requests.length requests
      (vehicles.map fun v => (v.id, [])) = .ok routes) :
    GreedyVRPPlanner.build_plan oracle depot vehicles requests =
      .ok ⟨⟨depot, routes⟩, vehicles.foldl
        (fun acc v => acc + GreedyVRPPlanner.route_cost oracle v
          (getStops routes v.id) depot true) 0⟩ := by
  rw [GreedyVRPPlanner.build_plan.eq_def, hfind]
  dsimp only
  rw [hloop]

theorem greedy_build_plan_of_error (oracle : Oracle) (depot : NodeId)
    (vehicles : List Vehicle) (requests : List DeliveryRequest) (e : PlanError)
    (hfind : requests.find? (fun r => vehicles.all fun v => v.capacity < r.demand) = none)
    (hloop : GreedyVRPPlanner.greedyLoop oracle depot vehicles requests.length requests
      (vehicles.map fun v => (v.id, [])) = .error e) :
    GreedyVRPPlanner.build_plan oracle depot vehicles requests = .error e := by
  rw [GreedyVRPPlanner.build_plan.eq_def, hfind]
  dsimp only
  rw [hloop]


/-! The claims. -/

/-- C1: For every Plan produced by either planner (greedy or Monte Carlo
grouping) from a graph, depot, vehicle fleet, and request list satisfying
the planners' preconditions, the multiset of requests appearing across
all routes of the Plan equals exactly the input request multiset: no
request is lost, duplicated, or split across vehicles.  (The grouping
planner's preconditions include a nonempty fleet with distinct vehicle
ids, without which its dict-keyed state is ill-formed.) -/
theorem claim_C1_requests_conserved :
    (∀ (oracle : Oracle) (depot : NodeId) (vehicles : List Vehicle)
        (requests : List DeliveryRequest) (pc : PlanCost),
      GreedyVRPPlanner.build_plan oracle depot vehicles requests = .ok pc →
      stateMs pc.plan.routes = (requests : Multiset DeliveryRequest)) ∧
    (∀ (oracle : Oracle) (depot : NodeId) (vehicles : List Vehicle)
        (requests : List DeliveryRequest) (rng : Rng) (iterations k : ℕ),
      vehicles ≠ [] → (vehicles.map (·.id)).Nodup →
      stateMs (MonteCarloGroupingPlanner.build_plan oracle depot vehicles requests rng
        iterations k).plan.routes = (requests : Multiset DeliveryRequest)) := by
  constructor
  · intro oracle depot vehicles requests pc h
    match hfind : requests.find? (fun r => vehicles.all fun v => v.capacity < r.demand) with
    | some r =>
        rw [greedy_build_plan_of_find_some oracle depot vehicles requests r hfind] at h
        exact absurd h (by simp)
    | none =>
        match hloop : GreedyVRPPlanner.greedyLoop oracle depot vehicles requests.length
            requests (vehicles.map fun v => (v.id, [])) with
        | .error e =>
            rw [greedy_build_plan_of_error oracle depot vehicles requests e hfind hloop] at h
            exact absurd h (by simp)
        | .ok routes =>
            rw [greedy_build_plan_of_ok oracle depot vehicles requests routes hfind hloop] at h
            have hpc : pc.plan.routes = routes := by
              cases h
              rfl
            rw [hpc]
            have h0 : (vehicles.map fun v => (v.id, ([] : List DeliveryRequest))).map
                Prod.fst = vehicles.map (·.id) := by simp
            have hms := GreedyVRPPlanner.greedyLoop_ms oracle depot vehicles
              requests.length requests (vehicles.map fun v => (v.id, [])) routes h0 hloop
            rw [hms, stateMs_empty_routes, zero_add]
  · intro oracle depot vehicles requests rng iterations k hne hnd
    by_cases hreq : requests = []
    · subst hreq
      rw [mc_build_plan_empty]
      rw [show stateMs ((⟨⟨depot, vehicles.map fun v => (v.id, [])⟩, 0⟩ :
        GroupingResult)).plan.routes = stateMs (vehicles.map fun v => (v.id, [])) from rfl]
      rw [stateMs_empty_routes]
      rfl
    · rw [mc_build_plan_eq oracle depot vehicles requests rng iterations k hreq]
      have hkeys0 := init_state_random_keys vehicles requests rng k hne
      have hms0 := init_state_random_ms vehicles requests rng k hne
      have hres := mcLoop_keys_ms depot vehicles (mcDist oracle depot requests) rng hne
        (requests : Multiset DeliveryRequest) iterations
        (init_state_random vehicles requests rng k).2
        (init_state_random vehicles requests rng k).1
        (evaluate_state depot vehicles (init_state_random vehicles requests rng k).1
          (mcDist oracle depot requests))
        (init_state_random vehicles requests rng k).1
        (evaluate_state depot vehicles (init_state_random vehicles requests rng k).1
          (mcDist oracle depot requests))
        hkeys0 hms0 hkeys0 hms0
      calc stateMs (vehicles.map fun v =>
            (v.id, build_tsp_route_nearest_neighbor depot
              (getStops (mcLoop depot vehicles (mcDist oracle depot requests) rng iterations
                (init_state_random vehicles requests rng k).2
                (init_state_random vehicles requests rng k).1
                (evaluate_state depot vehicles (init_state_random vehicles requests rng k).1
                  (mcDist oracle depot requests))
                (init_state_random vehicles requests rng k).1
                (evaluate_state depot vehicles (init_state_random vehicles requests rng k).1
                  (mcDist oracle depot requests))).2.2.1 v.id)
              (mcDist oracle depot requests)))
          = stateMs (mcLoop depot vehicles (mcDist oracle depot requests) rng iterations
                (init_state_random vehicles requests rng k).2
                (init_state_random vehicles requests rng k).1
                (evaluate_state depot vehicles (init_state_random vehicles requests rng k).1
                  (mcDist oracle depot requests))
                (init_state_random vehicles requests rng k).1
                (evaluate_state depot vehicles (init_state_random vehicles requests rng k).1
                  (mcDist oracle depot requests))).2.2.1 :=
            stateMs_rebuild (mcDist oracle depot requests) depot vehicles _ hres.1 hnd
        _ = (requests : Multiset DeliveryRequest) := hres.2

/-- C1 witness: both conjuncts applied at concrete inputs. -/
theorem claim_C1_witness :
    stateMs (⟨⟨0, [(0, [⟨5, 0, 1⟩])]⟩, List.foldl
      (fun acc v => acc + GreedyVRPPlanner.route_cost (fun _ _ => some 0) v
        (getStops [(0, [⟨5, 0, 1⟩])] v.id) 0 true) 0 [⟨0, 0, 1⟩]⟩ :
        PlanCost).plan.routes =
      (([⟨5, 0, 1⟩] : List DeliveryRequest) : Multiset DeliveryRequest) ∧
    stateMs (MonteCarloGroupingPlanner.build_plan (fun _ _ => some 1) 0
      [⟨0, 0, 5⟩, ⟨1, 0, 5⟩] [⟨7, 1, 1⟩] rngZero 1 0).plan.routes =
      (([⟨7, 1, 1⟩] : List DeliveryRequest) : Multiset DeliveryRequest) :=
  ⟨claim_C1_requests_conserved.1 (fun _ _ => some 0) 0 [⟨0, 0, 1⟩] [⟨5, 0, 1⟩] _ (by rfl),
   claim_C1_requests_conserved.2 (fun _ _ => some 1) 0 [⟨0, 0, 5⟩, ⟨1, 0, 5⟩] [⟨7, 1, 1⟩]
     rngZero 1 0 (by decide) (by decide)⟩

/-- C10: Every Plan returned by either planner contains a route entry for
every vehicle in the input fleet, including vehicles to which no request
was assigned (such vehicles hold an empty stop list), and contains no
entry for any identifier outside the fleet: the plan's key list is
exactly the fleet's id list. -/
theorem claim_C10_route_keys :
    (∀ (oracle : Oracle) (depot : NodeId) (vehicles : List Vehicle)
        (requests : List DeliveryRequest) (pc : PlanCost),
      GreedyVRPPlanner.build_plan oracle depot vehicles requests = .ok pc →
      pc.plan.routes.map Prod.fst = vehicles.map (·.id)) ∧
    (∀ (oracle : Oracle) (depot : NodeId) (vehicles : List Vehicle)
        (requests : List DeliveryRequest) (rng : Rng) (iterations k : ℕ),
      (MonteCarloGroupingPlanner.build_plan oracle depot vehicles requests rng
        iterations k).plan.routes.map Prod.fst = vehicles.map (·.id)) := by
  constructor
  · intro oracle depot vehicles requests pc h
    match hfind : requests.find? (fun r => vehicles.all fun v => v.capacity < r.demand) with
    | some r =>
        rw [greedy_build_plan_of_find_some oracle depot vehicles requests r hfind] at h
        exact absurd h (by simp)
    | none =>
        match hloop : GreedyVRPPlanner.greedyLoop oracle depot vehicles requests.length
            requests (vehicles.map fun v => (v.id, [])) with
        | .error e =>
            rw [greedy_build_plan_of_error oracle depot vehicles requests e hfind hloop] at h
            exact absurd h (by simp)
        | .ok routes =>
            rw [greedy_build_plan_of_ok oracle depot vehicles requests routes hfind hloop] at h
            have hpc : pc.plan.routes = routes := by
              cases h
              rfl
            rw [hpc]
            have hkeys := GreedyVRPPlanner.greedyLoop_keys oracle depot vehicles
              requests.length requests (vehicles.map fun v => (v.id, [])) routes hloop
            rw [hkeys]
            simp
  · intro oracle depot vehicles requests rng iterations k
    by_cases hreq : requests = []
    · subst hreq
      rw [mc_build_plan_empty]
      simp
    · rw [mc_build_plan_eq oracle depot vehicles requests rng iterations k hreq]
      simp

/-- C10 witness: the greedy conjunct applied at a concrete input. -/
theorem claim_C10_witness :
    (⟨⟨0, [(0, [⟨5, 0, 1⟩])]⟩, List.foldl
      (fun acc v => acc + GreedyVRPPlanner.route_cost (fun _ _ => some 0) v
        (getStops [(0, [⟨5, 0, 1⟩])] v.id) 0 true) 0 [⟨0, 0, 1⟩]⟩ :
        PlanCost).plan.routes.map Prod.fst =
      ([⟨0, 0, 1⟩] : List Vehicle).map (·.id) :=
  claim_C10_route_keys.1 (fun _ _ => some 0) 0 [⟨0, 0, 1⟩] [⟨5, 0, 1⟩] _ (by rfl)


/-- C7: For every request list containing a request whose demand exceeds
the capacity of every vehicle in the fleet, the greedy planner fails with
an explicit infeasible-request error naming the offending request
identifier and its demand, before any route is committed (the error is
the planner's whole result, so no partial plan is observable). -/
theorem claim_C7_infeasible_error (oracle : Oracle) (depot : NodeId)
    (vehicles : List Vehicle) (requests : List DeliveryRequest)
    (h : ∃ r ∈ requests, ∀ v ∈ vehicles, v.capacity < r.demand) :
    ∃ r0, (r0 ∈ requests ∧ ∀ v ∈ vehicles, v.capacity < r0.demand) ∧
      GreedyVRPPlanner.build_plan oracle depot vehicles requests =
        .error (.infeasible r0.id r0.demand) := by
  have hsome : (requests.find? (fun r => vehicles.all fun v =>
      v.capacity < r.demand)).isSome := by
    rw [List.find?_isSome]
    rcases h with ⟨r, hr, hrc⟩
    refine ⟨r, hr, ?_⟩
    simp only [List.all_eq_true, decide_eq_true_eq]
    exact fun v hv => hrc v hv
  match hfind : requests.find? (fun r => vehicles.all fun v => v.capacity < r.demand) with
  | none => rw [hfind] at hsome; simp at hsome
  | some r0 =>
      refine ⟨r0, ⟨List.mem_of_find?_eq_some hfind, ?_⟩,
        greedy_build_plan_of_find_some oracle depot vehicles requests r0 hfind⟩
      have hp := List.find?_some hfind
      simp only [List.all_eq_true, decide_eq_true_eq] at hp
      exact hp

/-- C7 witness: one request of demand 2, one vehicle of capacity 1. -/
theorem claim_C7_witness :
    ∃ r0, (r0 ∈ [(⟨5, 0, 2⟩ : DeliveryRequest)] ∧
      ∀ v ∈ [(⟨0, 0, 1⟩ : Vehicle)], v.capacity < r0.demand) ∧
      GreedyVRPPlanner.build_plan (fun _ _ => some 1) 0 [⟨0, 0, 1⟩] [⟨5, 0, 2⟩] =
        .error (.infeasible r0.id r0.demand) :=
  claim_C7_infeasible_error (fun _ _ => some 1) 0 [⟨0, 0, 1⟩] [⟨5, 0, 2⟩]
    ⟨⟨5, 0, 2⟩, by decide, by decide⟩

/-- C3 counterexample: a capacity-eligible request at an unreachable node.
The upfront feasibility precondition passes (capacity 10 carries demand
1), every candidate assignment has infinite route cost, yet the planner
returns a plan committing the request with infinite total time instead of
raising the fatal planning error the claim requires. -/
theorem claim_C3_counterexample :
    GreedyVRPPlanner.build_plan (fun a b => if a = b then some 0 else none) 0
      [⟨0, 0, 10⟩] [⟨5, 1, 1⟩] =
      .ok ⟨⟨0, [(0, [⟨5, 1, 1⟩])]⟩, ⊤⟩ := by rfl

/-- C3 amended: the greedy planner raises its internal fatal error only
when some assignment step finds no (remaining request, capacity-eligible
vehicle) pair at all; since the upfront precondition guarantees such a
pair always exists, planning always returns a plan — even when every
candidate has infinite route cost, in which case the first such pair is
committed silently. -/
theorem claim_C3_amended (oracle : Oracle) (depot : NodeId) (vehicles : List Vehicle)
    (requests : List DeliveryRequest)
    (h : ∀ r ∈ requests, ∃ v ∈ vehicles, r.demand ≤ v.capacity) :
    ∃ pc, GreedyVRPPlanner.build_plan oracle depot vehicles requests = .ok pc := by
  have hfind : requests.find? (fun r => vehicles.all fun v => v.capacity < r.demand) =
      none := by
    rw [List.find?_eq_none]
    intro r hr
    simp only [List.all_eq_true, decide_eq_true_eq]
    push_neg
    rcases h r hr with ⟨v, hv, hvc⟩
    exact ⟨v, hv, by omega⟩
  rcases GreedyVRPPlanner.greedyLoop_ok oracle depot vehicles requests.length requests
    (vehicles.map fun v => (v.id, [])) (le_refl _) h with ⟨out, hout⟩
  exact ⟨_, greedy_build_plan_of_ok oracle depot vehicles requests out hfind hout⟩

/-- C3 amended witness: the counterexample instance itself satisfies the
precondition and the planner returns a plan. -/
theorem claim_C3_amended_witness :
    ∃ pc, GreedyVRPPlanner.build_plan (fun a b => if a = b then some 0 else none) 0
      [⟨0, 0, 10⟩] [⟨5, 1, 1⟩] = .ok pc :=
  claim_C3_amended (fun a b => if a = b then some 0 else none) 0
    [⟨0, 0, 10⟩] [⟨5, 1, 1⟩] (by decide)

/-- C4 counterexample: with an empty request list the greedy planner still
sums every vehicle's empty-route cost, calling the oracle for a vehicle
that starts away from the depot: the total time is the vehicle's return
leg (7), not 0. -/
theorem claim_C4_counterexample :
    GreedyVRPPlanner.build_plan (fun _ _ => some 7) 0 [⟨0, 1, 5⟩] [] =
      .ok ⟨⟨0, [(0, [])]⟩, (0 : WithTop ℚ) + ((7 : ℚ) : WithTop ℚ)⟩ ∧
    (0 : WithTop ℚ) + ((7 : ℚ) : WithTop ℚ) ≠ 0 := by
  constructor
  · rfl
  · rw [zero_add]
    intro hc
    have h7 : (7 : ℚ) = 0 := by exact_mod_cast hc
    norm_num at h7

/-- C4 amended: the grouping planner behaves exactly as claimed on an
empty request list (empty route per vehicle, makespan 0, independent of
the oracle, the randomness and the iteration budget, hence no search and
no cache); the greedy planner yields empty routes but its total is the
sum of the per-vehicle empty-route costs, which is 0 exactly when every
vehicle starts at the depot and has positive capacity. -/
theorem claim_C4_amended :
    (∀ (oracle : Oracle) (depot : NodeId) (vehicles : List Vehicle) (rng : Rng)
        (iterations k : ℕ),
      MonteCarloGroupingPlanner.build_plan oracle depot vehicles [] rng iterations k =
        ⟨⟨depot, vehicles.map fun v => (v.id, [])⟩, 0⟩) ∧
    (∀ (oracle : Oracle) (depot : NodeId) (vehicles : List Vehicle),
      (∀ v ∈ vehicles, v.start_node = depot ∧ 0 < v.capacity) →
      GreedyVRPPlanner.build_plan oracle depot vehicles [] =
        .ok ⟨⟨depot, vehicles.map fun v => (v.id, [])⟩, 0⟩) := by
  constructor
  · intro oracle depot vehicles rng iterations k
    exact mc_build_plan_empty oracle depot vehicles rng iterations k
  · intro oracle depot vehicles h
    have hfold : ∀ (vs : List Vehicle) (acc : WithTop ℚ),
        (∀ v ∈ vs, v.start_node = depot ∧ 0 < v.capacity) →
        vs.foldl (fun acc v => acc + GreedyVRPPlanner.route_cost oracle v
          (getStops (vehicles.map fun v => (v.id, [])) v.id) depot true) acc = acc := by
      intro vs
      induction vs with
      | nil => intro acc _; rfl
      | cons v rest ih =>
          intro acc hvs
          rw [List.foldl_cons]
          have hv := hvs v (List.mem_cons_self v rest)
          have hcost : GreedyVRPPlanner.route_cost oracle v
              (getStops (vehicles.map fun v => (v.id, [])) v.id) depot true = 0 := by
            rw [getStops_empty_routes]
            rw [GreedyVRPPlanner.route_cost, if_neg (by omega : ¬v.capacity ≤ 0)]
            rw [GreedyVRPPlanner.routeCostLoop]
            rw [if_neg]
            intro hh
            exact hh.2 hv.1
          rw [hcost, add_zero]
          exact ih acc (fun w hw => hvs w (List.mem_cons_of_mem v hw))
    have hloop : GreedyVRPPlanner.greedyLoop oracle depot vehicles
        (List.length ([] : List DeliveryRequest)) []
        (vehicles.map fun v => (v.id, [])) =
        .ok (vehicles.map fun v => (v.id, [])) := rfl
    have hmain := greedy_build_plan_of_ok oracle depot vehicles []
      (vehicles.map fun v => (v.id, [])) rfl hloop
    rw [hmain, hfold vehicles 0 h]

/-- C4 amended witness: both conjuncts at concrete inputs. -/
theorem claim_C4_amended_witness :
    MonteCarloGroupingPlanner.build_plan (fun _ _ => some 3) 0 [⟨0, 0, 5⟩] [] rngZero 2 0 =
      ⟨⟨0, [(0, [])]⟩, 0⟩ ∧
    GreedyVRPPlanner.build_plan (fun _ _ => some 3) 0 [⟨0, 0, 5⟩] [] =
      .ok ⟨⟨0, [(0, [])]⟩, 0⟩ :=
  ⟨claim_C4_amended.1 (fun _ _ => some 3) 0 [⟨0, 0, 5⟩] rngZero 2 0,
   claim_C4_amended.2 (fun _ _ => some 3) 0 [⟨0, 0, 5⟩] (by decide)⟩


/-- C2 counterexample: a stop of non-positive demand.  The claim's walk
visits the stop and sums the leg times (2 here), but both evaluators
return the infinite sentinel on any demand ≤ 0, so the evaluator does not
compute the walk's sum for every ordered stop list. -/
theorem claim_C2_counterexample :
    route_time 0 [⟨0, 1, 0⟩] (fun _ _ => 1) 5 ≠
      specRouteTime 0 [⟨0, 1, 0⟩] (fun _ _ => 1) 5 := by
  have h1 : route_time 0 [⟨0, 1, 0⟩] (fun _ _ => 1) 5 = INF := rfl
  have h2 : specRouteTime 0 [⟨0, 1, 0⟩] (fun _ _ => 1) 5 = 1 + (1 + 0) := rfl
  rw [h1, h2, INF]
  norm_num

/-- C2 amended: restricted to stop lists whose demands are all positive
(and positive capacity, as claimed), both evaluators compute exactly the
spec's capacity-aware walk: travel legs in stop order with an implicit
depot return inserted whenever the next demand exceeds the remaining
capacity (resetting it to full), the result being the sum of the leg
times plus the optional final depot return. -/
theorem claim_C2_amended :
    (∀ (oracle : Oracle) (vehicle : Vehicle) (stops : List DeliveryRequest)
        (depot : NodeId) (ret : Bool), 0 < vehicle.capacity →
      (∀ r ∈ stops, 0 < r.demand) →
      GreedyVRPPlanner.route_cost oracle vehicle stops depot ret =
        specRouteCost oracle vehicle stops depot ret) ∧
    (∀ (depot : NodeId) (stops : List DeliveryRequest) (dist : NodeId → NodeId → ℚ)
        (cap : ℤ), 0 < cap → (∀ r ∈ stops, 0 < r.demand) →
      route_time depot stops dist cap = specRouteTime depot stops dist cap) :=
  ⟨fun oracle vehicle stops depot ret h1 h2 =>
    GreedyVRPPlanner.route_cost_eq_spec oracle vehicle stops depot ret h1 h2,
   fun depot stops dist cap h1 h2 => route_time_eq_spec depot stops dist cap h1 h2⟩

/-- C2 amended witness: the spec's concrete scenario (capacity 10, three
stops of demand 4, forcing one implicit depot reset), both evaluators. -/
theorem claim_C2_amended_witness :
    GreedyVRPPlanner.route_cost (fun _ _ => some 1) ⟨0, 0, 10⟩
      [⟨0, 1, 4⟩, ⟨1, 2, 4⟩, ⟨2, 3, 4⟩] 0 true =
      specRouteCost (fun _ _ => some 1) ⟨0, 0, 10⟩
        [⟨0, 1, 4⟩, ⟨1, 2, 4⟩, ⟨2, 3, 4⟩] 0 true ∧
    route_time 0 [⟨0, 1, 4⟩, ⟨1, 2, 4⟩, ⟨2, 3, 4⟩] (fun _ _ => 1) 10 =
      specRouteTime 0 [⟨0, 1, 4⟩, ⟨1, 2, 4⟩, ⟨2, 3, 4⟩] (fun _ _ => 1) 10 :=
  ⟨claim_C2_amended.1 (fun _ _ => some 1) ⟨0, 0, 10⟩ [⟨0, 1, 4⟩, ⟨1, 2, 4⟩, ⟨2, 3, 4⟩]
    0 true (by decide) (by decide),
   claim_C2_amended.2 0 [⟨0, 1, 4⟩, ⟨1, 2, 4⟩, ⟨2, 3, 4⟩] (fun _ _ => 1) 10
    (by decide) (by decide)⟩

/-- C5 counterexample: the cache-based evaluator checks for an empty stop
list before checking the capacity, so with capacity 0 and an empty stop
list it returns 0, not the infinite sentinel. -/
theorem claim_C5_counterexample :
    route_time 0 [] (fun _ _ => 1) 0 = 0 ∧ (0 : ℚ) ≠ INF := by
  refine ⟨rfl, ?_⟩
  rw [INF]
  norm_num

/-- C5 amended: the basic evaluator returns the infinite cost for every
stop list (empty included) whenever the capacity is non-positive; the
cache-based evaluator does so only for nonempty stop lists, returning 0
on the empty stop list regardless of capacity. -/
theorem claim_C5_amended :
    (∀ (oracle : Oracle) (vehicle : Vehicle) (stops : List DeliveryRequest)
        (depot : NodeId) (ret : Bool), vehicle.capacity ≤ 0 →
      GreedyVRPPlanner.route_cost oracle vehicle stops depot ret = ⊤) ∧
    (∀ (depot : NodeId) (stops : List DeliveryRequest) (dist : NodeId → NodeId → ℚ)
        (cap : ℤ), cap ≤ 0 → stops ≠ [] →
      route_time depot stops dist cap = INF) := by
  constructor
  · intro oracle vehicle stops depot ret h
    rw [GreedyVRPPlanner.route_cost, if_pos h]
  · intro depot stops dist cap hcap hstops
    rw [route_time, if_neg hstops, if_pos hcap]

/-- C5 amended witness: both conjuncts at concrete inputs. -/
theorem claim_C5_amended_witness :
    GreedyVRPPlanner.route_cost (fun _ _ => some 1) ⟨0, 0, 0⟩ [] 0 true = ⊤ ∧
    route_time 0 [⟨0, 1, 1⟩] (fun _ _ => 1) 0 = INF :=
  ⟨claim_C5_amended.1 (fun _ _ => some 1) ⟨0, 0, 0⟩ [] 0 true (by decide),
   claim_C5_amended.2 0 [⟨0, 1, 1⟩] (fun _ _ => 1) 0 (by decide) (by decide)⟩

/-- C6 counterexample: an unreachable first leg (cached as the INF
sentinel).  The cache-based evaluator does not short-circuit: it keeps
simulating and returns the accumulated sum ((0 + INF) + 5) + 5, which is
strictly greater than the sentinel itself — an accumulated sum, not the
claimed "+∞ for the entire route". -/
theorem claim_C6_counterexample :
    route_time 0 [⟨0, 1, 1⟩, ⟨1, 2, 1⟩]
      (fun a b => if a = 0 ∧ b = 1 then INF else if a = 1 ∧ b = 2 then 5
        else if a = 2 ∧ b = 0 then 5 else 0) 10 = ((0 + INF) + 5) + 5 ∧
    ((0 + INF) + 5) + 5 ≠ INF := by
  refine ⟨rfl, ?_⟩
  rw [INF]
  norm_num

/-- C6 amended: the basic evaluator short-circuits to the infinite cost
whenever any leg of the capacity-aware walk is unreachable; the
cache-based evaluator instead accumulates the INF sentinel of the
unreachable leg, so (for positive capacity, positive demands, and a
nonnegative cache, as produced from the oracle) its result is at least
INF — an infeasibility signal, but an accumulated sum rather than an
early return. -/
theorem claim_C6_amended :
    (∀ (oracle : Oracle) (vehicle : Vehicle) (stops : List DeliveryRequest)
        (depot : NodeId) (ret : Bool),
      (∃ p ∈ specWalkLegs depot vehicle.capacity ret stops vehicle.start_node,
        oracle p.1 p.2 = none) →
      GreedyVRPPlanner.route_cost oracle vehicle stops depot ret = ⊤) ∧
    (∀ (depot : NodeId) (stops : List DeliveryRequest) (dist : NodeId → NodeId → ℚ)
        (cap : ℤ), 0 < cap → (∀ r ∈ stops, 0 < r.demand) →
      (∀ a b, 0 ≤ dist a b) →
      (∃ p ∈ specWalkLegs depot cap true stops depot, INF ≤ dist p.1 p.2) →
      INF ≤ route_time depot stops dist cap) := by
  constructor
  · intro oracle vehicle stops depot ret h
    exact GreedyVRPPlanner.route_cost_top_of_unreachable oracle vehicle stops depot ret h
  · intro depot stops dist cap hcap hdem hnn h
    rw [route_time_eq_spec depot stops dist cap hcap hdem, specRouteTime]
    rcases h with ⟨p, hp, hple⟩
    refine le_trans hple ?_
    apply List.single_le_sum
    · intro x hx
      rcases List.mem_map.mp hx with ⟨q, _, hq⟩
      rw [← hq]
      exact hnn q.1 q.2
    · exact List.mem_map_of_mem (fun p => dist p.1 p.2) hp

/-- C6 amended witness: both conjuncts at concrete inputs. -/
theorem claim_C6_amended_witness :
    GreedyVRPPlanner.route_cost (fun _ _ => none) ⟨0, 0, 5⟩ [⟨0, 1, 1⟩] 0 true = ⊤ ∧
    INF ≤ route_time 0 [⟨0, 1, 1⟩, ⟨1, 2, 1⟩]
      (fun a b => if a = 0 ∧ b = 1 then INF else if a = 1 ∧ b = 2 then 5
        else if a = 2 ∧ b = 0 then 5 else 0) 10 :=
  ⟨claim_C6_amended.1 (fun _ _ => none) ⟨0, 0, 5⟩ [⟨0, 1, 1⟩] 0 true
    ⟨(0, 1), by decide, rfl⟩,
   claim_C6_amended.2 0 [⟨0, 1, 1⟩, ⟨1, 2, 1⟩]
    (fun a b => if a = 0 ∧ b = 1 then INF else if a = 1 ∧ b = 2 then 5
      else if a = 2 ∧ b = 0 then 5 else 0) 10 (by decide) (by decide)
    (by
      intro a b
      dsimp only
      split_ifs <;> norm_num [INF])
    ⟨(0, 1), by decide, le_refl INF⟩⟩

/-- C8: In the Monte Carlo grouping planner's search loop, a candidate
state is accepted as the new current state iff its objective is ≤ the
current state's objective (captured by the one-iteration equations for
the resulting current state and retained best objective), and the
retained best objective value is non-increasing across iterations. -/
theorem claim_C8_acceptance_monotonicity :
    (∀ (depot : NodeId) (vehicles : List Vehicle) (dist : NodeId → NodeId → ℚ)
        (rng : Rng) (k : ℕ) (cur : MCState) (cc : ℚ) (best : MCState) (bc : ℚ)
        (cand : MCState) (candCost : ℚ),
      cand = (random_move cur vehicles rng k).1 →
      candCost = evaluate_state depot vehicles cand dist →
      (mcLoop depot vehicles dist rng 1 k cur cc best bc).1 =
        (if candCost ≤ cc then cand else cur) ∧
      (mcLoop depot vehicles dist rng 1 k cur cc best bc).2.2.2 =
        (if candCost ≤ cc ∧ candCost < bc then candCost else bc)) ∧
    (∀ (depot : NodeId) (vehicles : List Vehicle) (dist : NodeId → NodeId → ℚ)
        (rng : Rng) (n k : ℕ) (cur : MCState) (cc : ℚ) (best : MCState) (bc : ℚ),
      (mcLoop depot vehicles dist rng (n + 1) k cur cc best bc).2.2.2 ≤
        (mcLoop depot vehicles dist rng n k cur cc best bc).2.2.2) := by
  constructor
  · intro depot vehicles dist rng k cur cc best bc cand candCost hcand hcost
    subst hcand
    subst hcost
    rw [mcLoop_succ]
    by_cases hacc : evaluate_state depot vehicles
        (random_move cur vehicles rng k).1 dist ≤ cc
    · by_cases himp : evaluate_state depot vehicles
          (random_move cur vehicles rng k).1 dist < bc
      · simp [mcLoop, hacc, himp]
      · simp [mcLoop, hacc, himp]
    · simp [mcLoop, hacc]
  · intro depot vehicles dist rng n k cur cc best bc
    exact mcLoop_best_monotone depot vehicles dist rng n k cur cc best bc

/-- C8 witness: the one-iteration equations instantiated at a concrete
loop state (the second conjunct is hypothesis-free). -/
theorem claim_C8_witness :
    (mcLoop 0 [⟨0, 0, 5⟩] (fun _ _ => 1) rngZero 1 0 [(0, [])] 0 [(0, [])] 0).1 =
      (if evaluate_state 0 [⟨0, 0, 5⟩]
          ((random_move [(0, [])] [⟨0, 0, 5⟩] rngZero 0).1) (fun _ _ => 1) ≤ 0 then
        (random_move [(0, [])] [⟨0, 0, 5⟩] rngZero 0).1 else [(0, [])]) ∧
    (mcLoop 0 [⟨0, 0, 5⟩] (fun _ _ => 1) rngZero 1 0 [(0, [])] 0 [(0, [])] 0).2.2.2 =
      (if evaluate_state 0 [⟨0, 0, 5⟩]
          ((random_move [(0, [])] [⟨0, 0, 5⟩] rngZero 0).1) (fun _ _ => 1) ≤ 0 ∧
        evaluate_state 0 [⟨0, 0, 5⟩]
          ((random_move [(0, [])] [⟨0, 0, 5⟩] rngZero 0).1) (fun _ _ => 1) < 0 then
        evaluate_state 0 [⟨0, 0, 5⟩]
          ((random_move [(0, [])] [⟨0, 0, 5⟩] rngZero 0).1) (fun _ _ => 1) else 0) :=
  claim_C8_acceptance_monotonicity.1 0 [⟨0, 0, 5⟩] (fun _ _ => 1) rngZero 0
    [(0, [])] 0 [(0, [])] 0 _ _ rfl rfl


/-- C9: For every state, vehicle list, and random source, the local move
operator returns a freshly built state and leaves the input state and
every one of its per-vehicle request lists unmodified.  At the reference
level: the store cells reachable from the input state read back unchanged
after the move, and every reference held by the returned state is a fresh
cell (allocated at or beyond the input store's size).  The hypotheses say
the input state is well-formed: its references are live cells and its
keys cover the fleet ids (Python would raise KeyError otherwise). -/
theorem claim_C9_random_move_frame (state : MCStateR) (store : Store)
    (vehicles : List Vehicle) (rng : Rng) (k : ℕ)
    (hvalid : ∀ e ∈ state, e.2 < store.cells.length)
    (hkeys : ∀ v ∈ vehicles, v.id ∈ state.map Prod.fst)
    (hne : vehicles ≠ []) :
    (∀ e ∈ state,
      (random_move_ref state store vehicles rng k).2.1.read e.2 = store.read e.2) ∧
    (∀ e ∈ (random_move_ref state store vehicles rng k).1,
      store.cells.length ≤ e.2) := by
  rcases copyState_cells state store with ⟨ext, hext⟩
  have hreadpre : ∀ r, r < store.cells.length →
      Store.read (copyState store state).1 r = store.read r := by
    intro r hr
    have h1 : Store.read ⟨store.cells ++ ext⟩ r = store.read r :=
      read_of_prefix store ext r hr
    rw [← hext] at h1
    exact h1
  have hfresh : ∀ vid, vid ∈ state.map Prod.fst →
      store.cells.length ≤ (alookup (copyState store state).2 vid).getD 0 := by
    intro vid hvid
    have hv2 : vid ∈ (copyState store state).2.map Prod.fst := by
      rw [copyState_keys]
      exact hvid
    have hsome := alookup_isSome_of_mem _ vid hv2
    match hl : alookup (copyState store state).2 vid with
    | none => rw [hl] at hsome; simp at hsome
    | some r =>
        have hmem := alookup_mem _ vid r hl
        have hge := copyState_refs_ge state store (vid, r) hmem
        simpa [hl] using hge
  have hvne : vehicles.map (·.id) ≠ [] := fun hh => hne (List.map_eq_nil_iff.mp hh)
  have hchoiceKeys : ∀ (j : ℕ) (l : List Vid), l ≠ [] →
      (∀ x ∈ l, x ∈ vehicles.map (·.id)) → choice rng j l ∈ state.map Prod.fst := by
    intro j l hlne hsub
    rcases List.mem_map.mp (hsub _ (choice_mem rng j l hlne)) with ⟨v, hv, hveq⟩
    rw [← hveq]
    exact hkeys v hv
  have hfv : choice rng k (vehicles.map (·.id)) ∈ state.map Prod.fst :=
    hchoiceKeys k _ hvne (fun x hx => hx)
  have hFR := hfresh _ hfv
  constructor
  · intro e he
    have hev : e.2 < store.cells.length := hvalid e he
    simp only [random_move_ref]
    split_ifs with h1 h2
    · exact hreadpre e.2 hev
    · dsimp only
      have hne1 : ¬e.2 = (alookup (copyState store state).2
          (choice rng k (vehicles.map fun x => x.id))).getD 0 := by omega
      rw [read_write_ne _ _ _ _ hne1, read_write_ne _ _ _ _ hne1]
      exact hreadpre e.2 hev
    · dsimp only
      have hne1 : ¬e.2 = (alookup (copyState store state).2
          (choice rng k (vehicles.map fun x => x.id))).getD 0 := by omega
      have hto : choice rng (k + 2) ((vehicles.map (·.id)).filter
          (fun vid => ¬vid = choice rng k (vehicles.map (·.id)))) ∈
          state.map Prod.fst :=
        hchoiceKeys (k + 2) _ h2 (fun x hx => List.mem_of_mem_filter hx)
      have hTR := hfresh _ hto
      have hne2 : ¬e.2 = (alookup (copyState store state).2
          (choice rng (k + 2) ((vehicles.map (·.id)).filter
            (fun vid => ¬vid = choice rng k (vehicles.map (·.id)))))).getD 0 := by
        omega
      rw [read_write_ne _ _ _ _ hne2, read_write_ne _ _ _ _ hne1]
      exact hreadpre e.2 hev
  · simp only [random_move_ref]
    split_ifs with h1 h2
    · intro e he
      exact copyState_refs_ge state store e he
    · intro e he
      exact copyState_refs_ge state store e he
    · intro e he
      exact copyState_refs_ge state store e he

/-- C9 witness: a two-vehicle state over a two-cell store. -/
theorem claim_C9_witness :
    (∀ e ∈ [((0 : Vid), (0 : ℕ)), (1, 1)],
      (random_move_ref [(0, 0), (1, 1)] ⟨[[⟨7, 1, 1⟩], []]⟩
        [⟨0, 0, 5⟩, ⟨1, 0, 5⟩] rngZero 0).2.1.read e.2 =
      Store.read ⟨[[⟨7, 1, 1⟩], []]⟩ e.2) ∧
    (∀ e ∈ (random_move_ref [(0, 0), (1, 1)] ⟨[[⟨7, 1, 1⟩], []]⟩
        [⟨0, 0, 5⟩, ⟨1, 0, 5⟩] rngZero 0).1,
      (Store.mk [[⟨7, 1, 1⟩], []]).cells.length ≤ e.2) :=
  claim_C9_random_move_frame [(0, 0), (1, 1)] ⟨[[⟨7, 1, 1⟩], []]⟩
    [⟨0, 0, 5⟩, ⟨1, 0, 5⟩] rngZero 0 (by decide) (by decide) (by decide)
